import Mathlib

/-!
Shallow embedding of the similarity core of `src/utilities/sim_lib.py`
(bibliographic record matching: title / author-name / author-list / year
similarity plus a Hungarian minimum-cost assignment solver), together with
theorems settling the specification claims about it.

Python dynamic values are modelled by small sum types covering exactly the
type classes the source distinguishes (`None`, `str`, `list`, numbers,
anything else).  Python floats produced by the similarity arithmetic are
modelled by `ℚ` (the arithmetic performed is plain field arithmetic on
small fractions).  Python functions that can raise an uncaught exception
are modelled with `Except Unit`.  String processing is modelled on the
ASCII fragment (`Char.toLower`, `Char.isAlphanum` agree with Python there).
-/

namespace SimLib

/-- Model of a Python value passed where the source expects a string:
`None`, an actual `str`, or any other object. -/
inductive SVal where
  | none : SVal
  | str (s : String) : SVal
  | other : SVal
deriving DecidableEq

/-- Python `\s` (whitespace) on the ASCII fragment. -/
def isPySpace (c : Char) : Bool :=
  c = ' ' || c = '\t' || c = '\n' || c = '\r' || c = '\x0b' || c = '\x0c'

/-- Python `\w` (word character) on the ASCII fragment:
letters, digits and underscore. -/
def isWordChar (c : Char) : Bool := c.isAlphanum || c = '_'

/-- Accumulator-style splitter: cut a character list at separators,
dropping empty pieces — the semantics of Python `str.split()` after the
source's `re.sub` substitutions. -/
def splitAux (sep : Char → Bool) : List Char → List Char → List String
  | [], acc => if acc.isEmpty then [] else [String.mk acc.reverse]
  | c :: cs, acc =>
    if sep c then
      if acc.isEmpty then splitAux sep cs []
      else String.mk acc.reverse :: splitAux sep cs []
    else splitAux sep cs (c :: acc)

/-- Python `str.split()` generalized over the separator class. -/
def pySplit (sep : Char → Bool) (s : List Char) : List String := splitAux sep s []

/-- `IT_STOP` from the source: the bilingual title stopword list
(a Python set literal; list membership here, duplicates are harmless). -/
def IT_STOP : List String :=
  ["a","ad","al","allo","ai","agli","all","agl","alla","alle",
   "col","coi","con","della","delle","dei","del","dello","degli","di",
   "da","dal","dallo","dai","dagli","dalla","dalle",
   "in","nel","nello","nella","nei","negli","nelle","sul","sullo","sulla","sui","sugli","sulle",
   "tra","fra","su","sopra","sotto","oltre","contro","verso","entro",
   "il","lo","la","i","gli","le","un","uno","una","l",
   "e","ed","o","oppure","ma","però","anche","ne","né","che","cui","come","dove","quando",
   "mentre","se","allora","quindi","dunque","poiché","perché",
   "non","più","meno","mai","già","ancora","sempre","ora","adesso","poi","così","solo",
   "quasi","molto","troppo","poco","niente","nulla","tutto","ogni","ognuno",
   "questo","questa","questi","queste","quello","quella","quelli","quelle","ci","vi","mi","ti","si",
   "an","the","and","or","but","if","then","so","because","as","while","until","of","at","by",
   "for","with","about","against","between","into","through","during","before","after","above","below",
   "to","from","up","down","out","on","off","over","under",
   "again","further","once","here","there","when","where","why","how","all","any","both","each","few",
   "more","most","other","some","such","no","nor","not","only","own","same","than","too","very","can",
   "will","just","don","should","now","is","are","was","were","be","been","being","have","has","had",
   "do","does","did","having","you","he","she","it","we","they","me","him","her","them","my","your",
   "yours","his","their","its","our","ours","theirs","this","that","these","those"]

/-- `_tokens_fast` from the source: lowercase, keep maximal alphanumeric
runs as tokens (the regex replaces every non-alphanumeric run by a space
and `split()` then cuts at whitespace), drop tokens of length ≤ 1 or in
`IT_STOP`, collect into a set. -/
def tokens_fast (s : SVal) : Finset String :=
  match s with
  | .str s =>
      ((pySplit (fun c => !c.isAlphanum) (s.toList.map Char.toLower)).filter
        (fun t => decide (1 < t.length) && !(IT_STOP.contains t))).toFinset
  | _ => ∅

/-- `similarity_titles` from the source: Jaccard index of the two title
token sets; `0.0` on `None`/non-string input; `1.0` when both token sets
are empty. -/
def similarity_titles (s1 s2 : SVal) : ℚ :=
  match s1, s2 with
  | .str a, .str b =>
      let t1 := tokens_fast (.str a)
      let t2 := tokens_fast (.str b)
      if t1 = ∅ ∧ t2 = ∅ then 1
      else
        let inter := (t1 ∩ t2).card
        let union := (t1 ∪ t2).card
        if union ≠ 0 then (inter : ℚ) / union else 0
  | _, _ => 0

/-- `STOPWORDS` from the source: honorific/title stopword list for
author-name normalization. -/
def STOPWORDS : List String :=
  ["dr","dott","dottor","dottore","dottssa","dott.ssa","dott.sso","dott.sse",
   "prof","professor","professore","profssa","prof.ssa",
   "ing","arch","geom","rag","avv","notaio","on","onorevole","pres","presidente",
   "min","ministro","sen","senatore","mons","monsignor","monsignore",
   "rev","reverendo","don","fra","padre","suor","sig","sigra","sig.ra","signor",
   "signore","signora","signorina",
   "mr","mrs","ms","miss","sir","lady","lord","madam","madame",
   "reverend","drs","doctor","phd","md","lt","sgt","col","gen","cap","mag",
   "capt","ltcol","ltgen","maj","cpt","colonnello","generale","capitano","maggiore"]

/-- `normalize_author` from the source: lowercase, replace punctuation
(non word, non space characters) by spaces, split on whitespace, drop
empty tokens and honorific stopwords.  `None`/non-string input gives the
empty list. -/
def normalize_author (name : SVal) : List String :=
  match name with
  | .str s =>
      let cs := s.toList.map Char.toLower
      let cs2 := cs.map (fun c => if isWordChar c || isPySpace c then c else ' ')
      (pySplit isPySpace cs2).filter (fun t => !(t == "") && !(STOPWORDS.contains t))
  | _ => []

/-- `initials` from the source: first character of every non-empty token. -/
def initials (tokens : List String) : List Char :=
  tokens.filterMap (fun t => t.toList.head?)

/-- Head character of a token; the source writes `t[0]` and only ever
reaches it on non-empty tokens, so the default is never used. -/
def firstCharD (t : String) : Char := t.toList.headD ' '

/-- `author_similarity` from the source: 0 if a normalized name is empty,
1 on exactly equal token lists, otherwise the Jaccard index of the token
sets raised by the initials rule (0.6) and the surname rules (0.8 with a
matching first initial, 0.7 otherwise). -/
def author_similarity (a b : SVal) : ℚ :=
  let ta := normalize_author a
  let tb := normalize_author b
  if ta = [] ∨ tb = [] then 0
  else if ta = tb then 1
  else
    let inter := (ta.toFinset ∩ tb.toFinset).card
    let union := (ta.toFinset ∪ tb.toFinset).card
    let base : ℚ := if union ≠ 0 then (inter : ℚ) / union else 0
    let ia := initials ta
    let ib := initials tb
    let base1 := if ia = ib ∧ ia ≠ [] then max base (6/10) else base
    if ta.getLastD "" = tb.getLastD "" then
      if firstCharD (ta.headD "") = firstCharD (tb.headD "") then max base1 (8/10)
      else max base1 (7/10)
    else base1

/-- Model of a Python value passed where the source expects a year.
A finite float is represented by its `int()` truncation — the only use the
source makes of it; `nan` and `±inf` are the float values whose `int()`
coercion raises (`ValueError` resp. `OverflowError`). -/
inductive YVal where
  | none : YVal
  | int (z : ℤ) : YVal
  | floatFin (z : ℤ) : YVal
  | floatNan : YVal
  | floatInf : YVal
  | other : YVal
deriving DecidableEq

/-- `isinstance(year, (int, float))` on the model. -/
def yearIsNum : YVal → Bool
  | .int _ => true
  | .floatFin _ => true
  | .floatNan => true
  | .floatInf => true
  | _ => false

/-- Outcome of Python `int(x)` on the model. -/
inductive CoerceResult where
  | ok (z : ℤ) : CoerceResult
  | valueError : CoerceResult
  | overflowError : CoerceResult

/-- Python `int(x)` on the model: succeeds on ints and finite floats,
raises `ValueError` on `nan` (caught by the source), `OverflowError` on
`±inf` (not caught by the source). -/
def pyInt : YVal → CoerceResult
  | .int z => .ok z
  | .floatFin z => .ok z
  | .floatNan => .valueError
  | .floatInf => .overflowError
  | _ => .valueError

/-- `similarity_years` from the source.  The `isinstance` guard returns
`0.0` for non-numeric input; the `try` block coerces both years, its
`except (ValueError, TypeError)` clause returns `0.0`, while an
`OverflowError` (infinite float) propagates as an uncaught exception
(modelled by `.error ()`).  The final fall-through (unreachable since the
absolute difference is never negative) would return Python `None`. -/
def similarity_years (year1 year2 : YVal) : Except Unit ℚ :=
  if ¬(yearIsNum year1 = true) ∨ ¬(yearIsNum year2 = true) then .ok 0
  else
    match pyInt year1 with
    | .overflowError => .error ()
    | .valueError => .ok 0
    | .ok z1 =>
      match pyInt year2 with
      | .overflowError => .error ()
      | .valueError => .ok 0
      | .ok z2 =>
        let years_dif := |z1 - z2|
        if years_dif = 0 then .ok 1
        else if 0 < years_dif ∧ years_dif ≤ 5 then .ok (7/10)
        else if 5 < years_dif ∧ years_dif ≤ 10 then .ok (1/2)
        else if 10 < years_dif ∧ years_dif ≤ 20 then .ok (3/10)
        else if 20 < years_dif ∧ years_dif ≤ 50 then .ok (1/5)
        else if 50 < years_dif ∧ years_dif ≤ 100 then .ok (1/10)
        else if 100 < years_dif then .ok (1/20)
        else .ok 0

/-- Model of a Python value passed where the source expects a list:
`None`, an actual `list` of values, or a non-sequence object
(one on which `len()` raises `TypeError`). -/
inductive LVal where
  | none : LVal
  | list (xs : List SVal) : LVal
  | seq (xs : List SVal) : LVal
  | other : LVal

/-- The elements a Python `len()`/iteration sees: a `list` and any other
sized iterable (a tuple; a `str`, iterated as its one-character strings;
a `dict`, iterated over its keys; a `set`) yield their elements in
iteration order, while `None` and unsized values (`int`, `float`, plain
objects) make `len()` raise `TypeError` (modelled by `Option.none`). -/
def seqElems : LVal → Option (List SVal)
  | .list xs => some xs
  | .seq xs => some xs
  | _ => Option.none

/-- The greedy inner scan of `similarity_authors`: for one row, the first
index attaining the strict maximum among columns not yet used
(`best` starts at `-1`, so any value of an unused column is picked). -/
def greedyPick (row : List ℚ) (used : Finset ℕ) : Option (ℚ × ℕ) :=
  row.enum.foldl
    (fun acc jv =>
      let best : ℚ := match acc with | some p => p.1 | Option.none => -1
      if jv.1 ∉ used ∧ best < jv.2 then some (jv.2, jv.1) else acc)
    Option.none

/-- The greedy accumulation loop of `similarity_authors` over the rows of
the similarity matrix. -/
def greedyTotal : List (List ℚ) → Finset ℕ → ℚ
  | [], _ => 0
  | row :: rest, used =>
    match greedyPick row used with
    | some (v, j) => v + greedyTotal rest (insert j used)
    | Option.none => greedyTotal rest used

/-- `similarity_authors` from the source (greedy author-list similarity):
type guard, empty-list cases, then greedy row-by-row matching on the
pairwise `author_similarity` matrix, normalized by the larger length. -/
def similarity_authors (lst1 lst2 : LVal) : ℚ :=
  match lst1, lst2 with
  | .list l1, .list l2 =>
      if l1 = [] ∧ l2 = [] then 1
      else if l1 = [] ∨ l2 = [] then 0
      else
        let sim_matrix := l1.map (fun a => l2.map (fun b => author_similarity a b))
        greedyTotal sim_matrix ∅ / (max l1.length l2.length : ℚ)
  | _, _ => 0

/-! ### Spec-side definitions (named from the spec, for refinement statements) -/

/-- The spec's year step table (§4.4) as a function of the absolute
difference `d`: d=0→1.0; 0<d≤5→0.7; 5<d≤10→0.5; 10<d≤20→0.3; 20<d≤50→0.2;
50<d≤100→0.1; d>100→0.05. -/
def yearStepSpec (d : ℤ) : ℚ :=
  if d = 0 then 1
  else if d ≤ 5 then 7/10
  else if d ≤ 10 then 1/2
  else if d ≤ 20 then 3/10
  else if d ≤ 50 then 1/5
  else if d ≤ 100 then 1/10
  else 1/20

/-- The spec's Jaccard index of two token lists viewed as sets (§4.3). -/
def jaccardSpec (ta tb : List String) : ℚ :=
  ((ta.toFinset ∩ tb.toFinset).card : ℚ) / ((ta.toFinset ∪ tb.toFinset).card : ℚ)

/-! ### Helper lemmas -/

lemma similarity_years_int (z1 z2 : ℤ) :
    similarity_years (.int z1) (.int z2) = .ok (yearStepSpec |z1 - z2|) := by
  have h0 : (0:ℤ) ≤ |z1 - z2| := abs_nonneg _
  generalize hd : |z1 - z2| = d at h0
  simp only [similarity_years, yearIsNum, pyInt, yearStepSpec, hd]
  norm_num
  split_ifs <;> first | rfl | (exfalso; omega)

lemma yearStepSpec_antitone {d e : ℤ} (hd : 0 ≤ d) (hde : d ≤ e) :
    yearStepSpec e ≤ yearStepSpec d := by
  simp only [yearStepSpec]
  split_ifs <;> first | (exfalso; omega) | norm_num

/-! ### Claim theorems: year similarity -/

/-- C4 (counterexample): the claim asserts `similarity_years (2000, 2006) = 0.7`,
but the source's step function puts the difference 6 in the `5 < d ≤ 10`
bucket, returning `0.5`. -/
theorem claim_C4_counterexample :
    similarity_years (.int 2000) (.int 2006) = .ok (1/2) ∧
    ¬ similarity_years (.int 2000) (.int 2006) = .ok (7/10) := by
  constructor
  · rfl
  · rw [show similarity_years (.int 2000) (.int 2006) = .ok ((1:ℚ)/2) from rfl]
    intro h
    rw [Except.ok.injEq] at h
    norm_num at h

/-- C4 (amended): `similarity_years` returns 1.0 on (2000, 2000),
0.5 on (2000, 2006), 0.05 on (2000, 2150), and 0.0 on (None, 2000). -/
theorem claim_C4_amended :
    similarity_years (.int 2000) (.int 2000) = .ok 1 ∧
    similarity_years (.int 2000) (.int 2006) = .ok (1/2) ∧
    similarity_years (.int 2000) (.int 2150) = .ok (1/20) ∧
    similarity_years .none (.int 2000) = .ok 0 :=
  ⟨rfl, rfl, rfl, rfl⟩

/-- C5: for integer years, `similarity_years` computes exactly the spec's
step table of the absolute difference (d=0→1.0; 0<d≤5→0.7; 5<d≤10→0.5;
10<d≤20→0.3; 20<d≤50→0.2; 50<d≤100→0.1; d>100→0.05), and that table is
monotonically non-increasing in the difference. -/
theorem claim_C5 (z1 z2 : ℤ) :
    similarity_years (.int z1) (.int z2) = .ok (yearStepSpec |z1 - z2|) ∧
    ∀ d e : ℤ, 0 ≤ d → d ≤ e → yearStepSpec e ≤ yearStepSpec d :=
  ⟨similarity_years_int z1 z2, fun _ _ hd hde => yearStepSpec_antitone hd hde⟩

/-- Witness for C5 at concrete inputs: the step value at difference 6 and
an instance of monotonicity. -/
theorem claim_C5_witness :
    similarity_years (.int 2000) (.int 2006) = .ok (yearStepSpec 6) ∧
    yearStepSpec 100 ≤ yearStepSpec 5 := by
  refine ⟨?_, (claim_C5 2000 2006).2 5 100 (by norm_num) (by norm_num)⟩
  have h := (claim_C5 2000 2006).1
  simpa using h

/-- C9 (code bug): coercing an infinite float year raises an uncaught
`OverflowError` — the `except` clause of `similarity_years` only catches
`ValueError` and `TypeError`, so the claim that every input yields a
defined score (and the spec's promise that coercion failures become 0.0)
fails on `float inf`.  `NaN` (a `ValueError`) is caught and gives 0.0. -/
theorem claim_C9_code_bug :
    similarity_years .floatInf (.int 2000) = .error () ∧
    similarity_years .floatNan (.int 2000) = .ok 0 :=
  ⟨rfl, rfl⟩

/-! ### Claim theorems: symmetry -/

lemma jaccard_base_comm (ta tb : List String) :
    (if (ta.toFinset ∪ tb.toFinset).card ≠ 0
      then (((ta.toFinset ∩ tb.toFinset).card : ℚ) / ((ta.toFinset ∪ tb.toFinset).card : ℚ))
      else 0) =
    (if (tb.toFinset ∪ ta.toFinset).card ≠ 0
      then (((tb.toFinset ∩ ta.toFinset).card : ℚ) / ((tb.toFinset ∪ ta.toFinset).card : ℚ))
      else 0) := by
  refine if_congr ?_ ?_ rfl
  · rw [Finset.union_comm]
  · rw [Finset.union_comm ta.toFinset tb.toFinset, Finset.inter_comm ta.toFinset tb.toFinset]

lemma initials_cond_comm (ta tb : List String) :
    (initials ta = initials tb ∧ initials ta ≠ []) ↔
    (initials tb = initials ta ∧ initials tb ≠ []) := by
  constructor
  · rintro ⟨h, hn⟩
    exact ⟨h.symm, h ▸ hn⟩
  · rintro ⟨h, hn⟩
    exact ⟨h.symm, h ▸ hn⟩

lemma base1_comm (ta tb : List String) :
    (if initials ta = initials tb ∧ initials ta ≠ []
      then max (if (ta.toFinset ∪ tb.toFinset).card ≠ 0
        then (((ta.toFinset ∩ tb.toFinset).card : ℚ) / ((ta.toFinset ∪ tb.toFinset).card : ℚ))
        else 0) (6/10)
      else (if (ta.toFinset ∪ tb.toFinset).card ≠ 0
        then (((ta.toFinset ∩ tb.toFinset).card : ℚ) / ((ta.toFinset ∪ tb.toFinset).card : ℚ))
        else 0)) =
    (if initials tb = initials ta ∧ initials tb ≠ []
      then max (if (tb.toFinset ∪ ta.toFinset).card ≠ 0
        then (((tb.toFinset ∩ ta.toFinset).card : ℚ) / ((tb.toFinset ∪ ta.toFinset).card : ℚ))
        else 0) (6/10)
      else (if (tb.toFinset ∪ ta.toFinset).card ≠ 0
        then (((tb.toFinset ∩ ta.toFinset).card : ℚ) / ((tb.toFinset ∪ ta.toFinset).card : ℚ))
        else 0)) := by
  refine if_congr (initials_cond_comm ta tb) ?_ (jaccard_base_comm ta tb)
  exact congrArg (fun q => max q (6/10)) (jaccard_base_comm ta tb)

/-- C8: `similarity_titles` is symmetric on every pair of input values,
including `None` and non-string values. -/
theorem claim_C8 (a b : SVal) : similarity_titles a b = similarity_titles b a := by
  cases a <;> cases b <;> try rfl
  simp only [similarity_titles]
  refine if_congr and_comm rfl (if_congr ?_ ?_ rfl)
  · rw [Finset.union_comm]
  · rw [Finset.union_comm, Finset.inter_comm]

/-- C10: `author_similarity` is symmetric on every pair of input values:
the empty guard, the equality short-circuit, the Jaccard base, the
initials rule and both surname rules are invariant under swapping. -/
theorem claim_C10 (a b : SVal) : author_similarity a b = author_similarity b a := by
  simp only [author_similarity]
  refine if_congr or_comm rfl (if_congr eq_comm rfl ?_)
  refine if_congr eq_comm (if_congr eq_comm ?_ ?_) (base1_comm _ _)
  · exact congrArg (fun q => max q (8/10)) (base1_comm _ _)
  · exact congrArg (fun q => max q (7/10)) (base1_comm _ _)

/-! ### Claim C6: the author-pair rule pipeline -/

lemma base_eq_jaccardSpec (ta tb : List String) :
    (if (ta.toFinset ∪ tb.toFinset).card ≠ 0
      then (((ta.toFinset ∩ tb.toFinset).card : ℚ) / ((ta.toFinset ∪ tb.toFinset).card : ℚ))
      else 0) = jaccardSpec ta tb := by
  by_cases h : (ta.toFinset ∪ tb.toFinset).card ≠ 0
  · rw [if_pos h]
    rfl
  · rw [if_neg h]
    push_neg at h
    unfold jaccardSpec
    rw [h]
    norm_num

lemma jaccardSpec_nonneg (ta tb : List String) : 0 ≤ jaccardSpec ta tb := by
  unfold jaccardSpec
  positivity

lemma jaccardSpec_le_one (ta tb : List String) : jaccardSpec ta tb ≤ 1 := by
  unfold jaccardSpec
  rcases Nat.eq_zero_or_pos (ta.toFinset ∪ tb.toFinset).card with h | h
  · rw [h]
    norm_num
  · rw [div_le_one (by exact_mod_cast h)]
    exact_mod_cast Finset.card_le_card (Finset.inter_subset_union)

lemma max_zero_right (x : ℚ) (h : 0 ≤ x) : max x 0 = x := max_eq_left h

/-- The sequential raise-by-max pipeline of the source equals the flat
maximum of the base score with the three rule bumps. -/
lemma seq_max_eq (J : ℚ) (hJ : 0 ≤ J) (c2 cl cf : Prop)
    [Decidable c2] [Decidable cl] [Decidable cf] :
    (if cl then (if cf then max (if c2 then max J (6/10) else J) (8/10)
                  else max (if c2 then max J (6/10) else J) (7/10))
      else (if c2 then max J (6/10) else J)) =
    max (max (max J (if c2 then 6/10 else 0)) (if cl ∧ cf then 8/10 else 0))
      (if cl ∧ ¬cf then 7/10 else 0) := by
  have hJ6 : (0:ℚ) ≤ max J (6/10) := le_trans (by norm_num) (le_max_right _ _)
  have hJ68 : (0:ℚ) ≤ max (max J (6/10)) (8/10) := le_trans (by norm_num) (le_max_right _ _)
  have hJ8 : (0:ℚ) ≤ max J (8/10) := le_trans (by norm_num) (le_max_right _ _)
  by_cases h2 : c2 <;> by_cases hl : cl <;> by_cases hf : cf <;>
    simp only [h2, hl, hf, if_true, if_false, ite_true, ite_false, and_self, and_true,
      true_and, and_false, false_and, not_true_eq_false, not_false_eq_true, ite_self]
  · rw [max_zero_right _ hJ68]
  · rw [max_zero_right _ hJ6]
  · rw [max_zero_right _ hJ6, max_zero_right _ hJ6]
  · rw [max_zero_right _ hJ6, max_zero_right _ hJ6]
  · rw [max_zero_right _ hJ, max_zero_right _ hJ8]
  · rw [max_zero_right _ hJ, max_zero_right _ hJ]
  · rw [max_zero_right _ hJ, max_zero_right _ hJ, max_zero_right _ hJ]
  · rw [max_zero_right _ hJ, max_zero_right _ hJ, max_zero_right _ hJ]

lemma author_similarity_nonneg (a b : SVal) : 0 ≤ author_similarity a b := by
  simp only [author_similarity]
  rw [base_eq_jaccardSpec]
  split_ifs <;> try norm_num
  all_goals first
    | exact jaccardSpec_nonneg _ _
    | exact le_trans (by norm_num) (le_max_right _ _)

lemma author_similarity_le_one (a b : SVal) : author_similarity a b ≤ 1 := by
  simp only [author_similarity]
  rw [base_eq_jaccardSpec]
  split_ifs <;> try norm_num
  all_goals (repeat' apply max_le) <;> first | exact jaccardSpec_le_one _ _ | norm_num

/-- C6: `author_similarity` follows the spec's ordered rule pipeline:
0 when a normalized list is empty, 1 on exactly equal token lists, and
otherwise the maximum of the Jaccard index of the token sets with the
initials bump (0.6), the surname+initial bump (0.8) and the surname-only
bump (0.7); the result always lies in `[0, 1]`. -/
theorem claim_C6 (a b : SVal) :
    (normalize_author a = [] ∨ normalize_author b = [] → author_similarity a b = 0) ∧
    (normalize_author a ≠ [] → normalize_author b ≠ [] →
      normalize_author a = normalize_author b → author_similarity a b = 1) ∧
    (normalize_author a ≠ [] → normalize_author b ≠ [] →
      normalize_author a ≠ normalize_author b →
      author_similarity a b =
        max (max (max (jaccardSpec (normalize_author a) (normalize_author b))
            (if initials (normalize_author a) = initials (normalize_author b) ∧
                initials (normalize_author a) ≠ [] then 6/10 else 0))
          (if (normalize_author a).getLastD "" = (normalize_author b).getLastD "" ∧
              firstCharD ((normalize_author a).headD "") =
                firstCharD ((normalize_author b).headD "")
            then 8/10 else 0))
          (if (normalize_author a).getLastD "" = (normalize_author b).getLastD "" ∧
              ¬ firstCharD ((normalize_author a).headD "") =
                firstCharD ((normalize_author b).headD "")
            then 7/10 else 0)) ∧
    0 ≤ author_similarity a b ∧ author_similarity a b ≤ 1 := by
  refine ⟨?_, ?_, ?_, author_similarity_nonneg a b, author_similarity_le_one a b⟩
  · intro h
    simp only [author_similarity]
    rw [if_pos h]
  · intro h1 h2 heq
    simp only [author_similarity]
    rw [if_neg (not_or.mpr ⟨h1, h2⟩), if_pos heq]
  · intro h1 h2 hne
    simp only [author_similarity]
    rw [if_neg (not_or.mpr ⟨h1, h2⟩), if_neg hne, base_eq_jaccardSpec]
    exact seq_max_eq _ (jaccardSpec_nonneg _ _) _ _ _

/-- Witness for C6 at concrete inputs: the empty rule on a `None` name and
the full pipeline on the spec's honorific example. -/
theorem claim_C6_witness :
    author_similarity SVal.none (.str "x") = 0 ∧
    author_similarity (.str "Prof. John Smith") (.str "J. Smith") =
      max (max (max (jaccardSpec (normalize_author (.str "Prof. John Smith"))
          (normalize_author (.str "J. Smith"))) (6/10)) (8/10)) 0 := by
  constructor
  · exact (claim_C6 SVal.none (.str "x")).1 (Or.inl rfl)
  · have h := (claim_C6 (.str "Prof. John Smith") (.str "J. Smith")).2.2.1
      (by decide) (by decide) (by decide)
    rw [h, if_pos (by decide), if_pos (by decide), if_neg (by decide)]

/-! ### Hungarian (Munkres) minimum-cost assignment: embedding

The source mutates a working copy `C` of the cost matrix, a mask matrix
(0 unmarked, 1 starred, 2 primed), and row/column cover flag arrays.  The
state is modelled over `Fin N`; the two unbounded `while` loops are given
explicit fuel, and the termination theorems show the fuel is never
exhausted. -/

/-- Working state of `hungarian_min_cost`. -/
structure HState (N : ℕ) where
  C : Fin N → Fin N → ℚ
  mask : Fin N → Fin N → ℕ
  rowCover : Fin N → Bool
  colCover : Fin N → Bool

/-- Row-major list of all index pairs — the iteration order of the
source's nested `for i ... for j ...` loops. -/
def pairsRM (N : ℕ) : List (Fin N × Fin N) :=
  (List.finRange N).bind (fun i => (List.finRange N).map (fun j => (i, j)))

/-- Python `min` of a list of floats; the empty case is unreachable at
the row/column-reduction call sites and is what `smallest_uncovered`
returns when everything is covered. -/
def pyMin (l : List ℚ) : ℚ :=
  match l with
  | [] => 0
  | x :: xs => xs.foldl min x

/-- Row reduction: subtract each row's minimum from the row. -/
def reduceRows (N : ℕ) (C : Fin N → Fin N → ℚ) : Fin N → Fin N → ℚ :=
  fun i j => C i j - pyMin ((List.finRange N).map (fun k => C i k))

/-- Column reduction: subtract each column's minimum from the column. -/
def reduceCols (N : ℕ) (C : Fin N → Fin N → ℚ) : Fin N → Fin N → ℚ :=
  fun i j => C i j - pyMin ((List.finRange N).map (fun k => C k j))

/-- The greedy initial starring pass: scan cells in row-major order,
starring each zero whose row and column are still uncovered and covering
its row and column. -/
def initStars (N : ℕ) (C : Fin N → Fin N → ℚ) : HState N :=
  (pairsRM N).foldl
    (fun s p =>
      if s.C p.1 p.2 = 0 ∧ s.rowCover p.1 = false ∧ s.colCover p.2 = false then
        { s with
          mask := fun i j => if i = p.1 ∧ j = p.2 then 1 else s.mask i j
          rowCover := fun i => if i = p.1 then true else s.rowCover i
          colCover := fun j => if j = p.2 then true else s.colCover j }
      else s)
    ⟨C, fun _ _ => 0, fun _ => false, fun _ => false⟩

/-- `cover_star_columns`: cover every column containing a star; return
the new state and the number of covered columns. -/
def cover_star_columns (N : ℕ) (s : HState N) : HState N × ℕ :=
  let cc : Fin N → Bool := fun j =>
    s.colCover j || (List.finRange N).any (fun i => s.mask i j == 1)
  ({ s with colCover := cc }, ((List.finRange N).filter (fun j => cc j)).length)

/-- `find_a_zero`: the first uncovered zero in row-major order. -/
def find_a_zero (N : ℕ) (s : HState N) : Option (Fin N × Fin N) :=
  (pairsRM N).find? (fun p => !s.rowCover p.1 && !s.colCover p.2 && decide (s.C p.1 p.2 = 0))

/-- `find_star_in_row`. -/
def find_star_in_row (N : ℕ) (s : HState N) (r : Fin N) : Option (Fin N) :=
  (List.finRange N).find? (fun j => s.mask r j == 1)

/-- `find_star_in_col`. -/
def find_star_in_col (N : ℕ) (s : HState N) (c : Fin N) : Option (Fin N) :=
  (List.finRange N).find? (fun i => s.mask i c == 1)

/-- `find_prime_in_row`. -/
def find_prime_in_row (N : ℕ) (s : HState N) (r : Fin N) : Option (Fin N) :=
  (List.finRange N).find? (fun j => s.mask r j == 2)

/-- `augment_path`: along the path, unstar the starred cells and star the
primed cells. -/
def augment_path (N : ℕ) (path : List (Fin N × Fin N)) (s : HState N) : HState N :=
  path.foldl
    (fun s p =>
      if s.mask p.1 p.2 = 1 then
        { s with mask := fun i j => if i = p.1 ∧ j = p.2 then 0 else s.mask i j }
      else if s.mask p.1 p.2 = 2 then
        { s with mask := fun i j => if i = p.1 ∧ j = p.2 then 1 else s.mask i j }
      else s)
    s

/-- `clear_primes`. -/
def clear_primes (N : ℕ) (s : HState N) : HState N :=
  { s with mask := fun i j => if s.mask i j = 2 then 0 else s.mask i j }

/-- `smallest_uncovered`: minimum over the uncovered cells, `0` when
every cell is covered (the source turns `inf` into `0.0`). -/
def smallest_uncovered (N : ℕ) (s : HState N) : ℚ :=
  pyMin (((pairsRM N).filter (fun p => !s.rowCover p.1 && !s.colCover p.2)).map
    (fun p => s.C p.1 p.2))

/-- The matrix adjustment performed when no uncovered zero exists: add
`m` to every covered row and subtract `m` from every uncovered column. -/
def adjust (N : ℕ) (s : HState N) (m : ℚ) : HState N :=
  { s with C := fun i j =>
      (if s.rowCover i then s.C i j + m else s.C i j) - (if s.colCover j then 0 else m) }

/-- The inner `while z_r is None` loop: adjust until an uncovered zero
appears (fuel-bounded; the invariant proof shows one adjustment always
suffices). -/
def findZeroLoop (N : ℕ) : ℕ → HState N → Option (HState N × (Fin N × Fin N))
  | 0, _ => Option.none
  | fuel + 1, s =>
    match find_a_zero N s with
    | some p => some (s, p)
    | Option.none => findZeroLoop N fuel (adjust N s (smallest_uncovered N s))

/-- The augmenting-path construction loop (fuel-bounded; the invariant
proof shows the alternating star/prime chain never revisits a row).  The
`find_prime_in_row` failure case would crash the source with a `None`
index; the invariant proof shows it is unreachable. -/
def buildPath (N : ℕ) : ℕ → HState N → Fin N → List (Fin N × Fin N) →
    Option (List (Fin N × Fin N))
  | 0, _, _, _ => Option.none
  | fuel + 1, s, z_c, path =>
    match find_star_in_col N s z_c with
    | Option.none => some path
    | some star_row =>
      match find_prime_in_row N s star_row with
      | Option.none => Option.none
      | some prime_col =>
          buildPath N fuel s prime_col (path ++ [(star_row, z_c), (star_row, prime_col)])

/-- The main `while count < N` loop of `hungarian_min_cost`
(fuel-bounded; the termination theorem shows `(N+1)*(N+1)` iterations
always suffice).  Each iteration finds and primes an uncovered zero, then
either covers its row (star present) or augments along the alternating
path, clears primes, resets covers and recounts the starred columns. -/
def mainLoop (N : ℕ) : ℕ → HState N → ℕ → HState N
  | 0, s, _ => s
  | fuel + 1, s, count =>
    if N ≤ count then s
    else
      match findZeroLoop N (N + 2) s with
      | Option.none => s
      | some (s1, z) =>
        let s2 : HState N := { s1 with
          mask := fun i j => if i = z.1 ∧ j = z.2 then 2 else s1.mask i j }
        match find_star_in_row N s2 z.1 with
        | some star_col =>
            mainLoop N fuel
              { s2 with
                rowCover := fun i => if i = z.1 then true else s2.rowCover i,
                colCover := fun j => if j = star_col then false else s2.colCover j }
              count
        | Option.none =>
            match buildPath N (N + 1) s2 z.2 [(z.1, z.2)] with
            | Option.none => s2
            | some path =>
              let s3 := clear_primes N (augment_path N path s2)
              let s4 : HState N := { s3 with
                rowCover := fun _ => false, colCover := fun _ => false }
              let p := cover_star_columns N s4
              mainLoop N fuel p.1 p.2

/-- The final extraction: for each row in order, the first starred
column (the source breaks after the first star of a row). -/
def extractAssignment (N : ℕ) (s : HState N) : List (ℕ × ℕ) :=
  (List.finRange N).filterMap
    (fun i => (find_star_in_row N s i).map (fun j => (i.1, j.1)))

/-- `hungarian_min_cost` from the source, on an `N×N` matrix given as a
function over `Fin N`. -/
def hungarian_min_cost (N : ℕ) (cost : Fin N → Fin N → ℚ) : List (ℕ × ℕ) :=
  let C := reduceCols N (reduceRows N cost)
  let s0 := initStars N C
  let s1 : HState N := { s0 with rowCover := fun _ => false, colCover := fun _ => false }
  let p := cover_star_columns N s1
  extractAssignment N (mainLoop N ((N + 1) * (N + 1)) p.1 p.2)

/-- `similarity_authors_hungarian` from the source: it has no type
guard, so `len()` raises `TypeError` on a `None` or unsized argument
(modelled by `.error ()`), while any sized iterable is accepted and
iterated over its elements (`seqElems`); empty cases as in the greedy
variant; otherwise the pairwise similarity matrix is padded to an `N×N`
cost matrix with `cost = 1 - sim` in range and `1.0` outside, solved by
`hungarian_min_cost`, and the in-range similarities of the assignment
are summed and divided by `N`. -/
def similarity_authors_hungarian (lst1 lst2 : LVal) : Except Unit ℚ :=
  match seqElems lst1, seqElems lst2 with
  | some l1, some l2 =>
      let n := l1.length
      let m := l2.length
      if n = 0 ∧ m = 0 then .ok 1
      else if n = 0 ∨ m = 0 then .ok 0
      else
        let sim : ℕ → ℕ → ℚ := fun i j =>
          author_similarity (l1.getD i SVal.none) (l2.getD j SVal.none)
        let N := max n m
        let cost : Fin N → Fin N → ℚ := fun i j =>
          if i.1 < n ∧ j.1 < m then 1 - sim i.1 j.1 else 1
        let assignment := hungarian_min_cost N cost
        .ok ((assignment.foldl
          (fun acc p => if p.1 < n ∧ p.2 < m then acc + sim p.1 p.2 else acc) 0) / N)
  | _, _ => .error ()

/-! ### Claim C3: degenerate inputs of the Hungarian list similarity -/

/-- C3 (counterexample): the claim says a null argument yields `0.0`
without error, like the greedy variant; but
`similarity_authors_hungarian` calls `len(lst1)` with no type guard, so a
`None` argument raises `TypeError` (modelled by `.error ()`). -/
theorem claim_C3_counterexample :
    similarity_authors_hungarian LVal.none (.list []) = .error () := rfl

/-- C3 (amended): the empty-list degenerate cases match the greedy
variant (both empty → 1.0, exactly one empty → 0.0); but the two
functions disagree on non-list inputs: a `None` or unsized argument
makes `similarity_authors_hungarian` raise `TypeError` from `len()`,
while a sized non-list iterable (tuple; str as its one-character
strings; dict over its keys; set) is accepted and scored over its
elements exactly as the corresponding list — the greedy variant instead
returns 0.0 for every `None` or non-list argument. -/
theorem claim_C3_amended :
    (∀ xs ys : List SVal, xs = [] → ys = [] →
      similarity_authors_hungarian (.list xs) (.list ys) = .ok 1) ∧
    (∀ xs ys : List SVal, (xs = [] ∧ ys ≠ []) ∨ (xs ≠ [] ∧ ys = []) →
      similarity_authors_hungarian (.list xs) (.list ys) = .ok 0) ∧
    (∀ w : LVal,
      similarity_authors_hungarian LVal.none w = .error () ∧
      similarity_authors_hungarian w LVal.none = .error () ∧
      similarity_authors_hungarian LVal.other w = .error () ∧
      similarity_authors_hungarian w LVal.other = .error ()) ∧
    (∀ xs ys : List SVal,
      similarity_authors_hungarian (.seq xs) (.list ys) =
        similarity_authors_hungarian (.list xs) (.list ys) ∧
      similarity_authors_hungarian (.list xs) (.seq ys) =
        similarity_authors_hungarian (.list xs) (.list ys) ∧
      similarity_authors_hungarian (.seq xs) (.seq ys) =
        similarity_authors_hungarian (.list xs) (.list ys) ∧
      similarity_authors (.seq xs) (.list ys) = 0 ∧
      similarity_authors (.list xs) (.seq ys) = 0) ∧
    (∀ w : LVal, similarity_authors LVal.none w = 0 ∧ similarity_authors w LVal.none = 0) := by
  refine ⟨?_, ?_, ?_, ?_, ?_⟩
  · intro xs ys hx hy
    subst hx
    subst hy
    rfl
  · rintro xs ys (⟨hx, hy⟩ | ⟨hx, hy⟩)
    · subst hx
      cases ys with
      | nil => exact absurd rfl hy
      | cons a t => rfl
    · subst hy
      cases xs with
      | nil => exact absurd rfl hx
      | cons a t => rfl
  · intro w
    cases w <;> exact ⟨rfl, rfl, rfl, rfl⟩
  · intro xs ys
    exact ⟨rfl, rfl, rfl, rfl, rfl⟩
  · intro w
    cases w <;> exact ⟨rfl, rfl⟩

/-- Witness for C3 (amended) at concrete inputs. -/
theorem claim_C3_amended_witness :
    similarity_authors_hungarian (.list []) (.list []) = .ok 1 ∧
    similarity_authors_hungarian (.list [.str "A"]) (.list []) = .ok 0 ∧
    similarity_authors_hungarian LVal.other (.list [.str "A"]) = .error () ∧
    similarity_authors_hungarian (.seq [.str "A"]) (.list [.str "A"]) =
      similarity_authors_hungarian (.list [.str "A"]) (.list [.str "A"]) ∧
    similarity_authors (.seq [.str "A"]) (.list [.str "A"]) = 0 :=
  ⟨claim_C3_amended.1 [] [] rfl rfl,
   claim_C3_amended.2.1 [.str "A"] [] (Or.inr ⟨List.cons_ne_nil _ _, rfl⟩),
   (claim_C3_amended.2.2.1 (.list [.str "A"])).2.2.1,
   (claim_C3_amended.2.2.2.1 [.str "A"] [.str "A"]).1,
   (claim_C3_amended.2.2.2.1 [.str "A"] [.str "A"]).2.2.2.1⟩

/-! ### Hungarian algorithm: proof infrastructure -/

/-- The set of starred cells of a state. -/
def starSet (N : ℕ) (s : HState N) : Finset (Fin N × Fin N) :=
  Finset.univ.filter (fun p => s.mask p.1 p.2 = 1)

/-- The set of covered rows of a state. -/
def coveredRows (N : ℕ) (s : HState N) : Finset (Fin N) :=
  Finset.univ.filter (fun i => s.rowCover i = true)

lemma mem_starSet {N : ℕ} {s : HState N} {p : Fin N × Fin N} :
    p ∈ starSet N s ↔ s.mask p.1 p.2 = 1 := by
  simp [starSet]

lemma mem_pairsRM {N : ℕ} (p : Fin N × Fin N) : p ∈ pairsRM N := by
  simp only [pairsRM, List.mem_bind, List.mem_map]
  exact ⟨p.1, List.mem_finRange _, p.2, List.mem_finRange _, rfl⟩

lemma find_star_in_row_mask {N : ℕ} {s : HState N} {r j : Fin N}
    (h : find_star_in_row N s r = some j) : s.mask r j = 1 := by
  have := List.find?_some h
  simpa using this

lemma find_star_in_row_none {N : ℕ} {s : HState N} {r : Fin N}
    (h : find_star_in_row N s r = Option.none) : ∀ j, s.mask r j ≠ 1 := by
  intro j
  have := List.find?_eq_none.mp h j (List.mem_finRange _)
  simpa using this

lemma find_star_in_row_of_star {N : ℕ} {s : HState N} {r j : Fin N}
    (h1 : s.mask r j = 1) (huniq : ∀ j', s.mask r j' = 1 → j' = j) :
    find_star_in_row N s r = some j := by
  cases hf : find_star_in_row N s r with
  | none => exact absurd h1 (find_star_in_row_none hf j)
  | some j' => rw [huniq j' (find_star_in_row_mask hf)]

lemma find_star_in_col_mask {N : ℕ} {s : HState N} {c i : Fin N}
    (h : find_star_in_col N s c = some i) : s.mask i c = 1 := by
  have := List.find?_some h
  simpa using this

lemma find_star_in_col_none {N : ℕ} {s : HState N} {c : Fin N}
    (h : find_star_in_col N s c = Option.none) : ∀ i, s.mask i c ≠ 1 := by
  intro i
  have := List.find?_eq_none.mp h i (List.mem_finRange _)
  simpa using this

lemma find_prime_in_row_mask {N : ℕ} {s : HState N} {r j : Fin N}
    (h : find_prime_in_row N s r = some j) : s.mask r j = 2 := by
  have := List.find?_some h
  simpa using this

lemma find_prime_in_row_none {N : ℕ} {s : HState N} {r : Fin N}
    (h : find_prime_in_row N s r = Option.none) : ∀ j, s.mask r j ≠ 2 := by
  intro j
  have := List.find?_eq_none.mp h j (List.mem_finRange _)
  simpa using this

lemma find_a_zero_spec {N : ℕ} {s : HState N} {p : Fin N × Fin N}
    (h : find_a_zero N s = some p) :
    s.rowCover p.1 = false ∧ s.colCover p.2 = false ∧ s.C p.1 p.2 = 0 := by
  have := List.find?_some h
  simp only [Bool.and_eq_true, Bool.not_eq_true', decide_eq_true_eq] at this
  exact ⟨this.1.1, this.1.2, this.2⟩

lemma find_a_zero_none {N : ℕ} {s : HState N}
    (h : find_a_zero N s = Option.none) :
    ∀ p : Fin N × Fin N, s.rowCover p.1 = false → s.colCover p.2 = false →
      s.C p.1 p.2 ≠ 0 := by
  intro p h1 h2
  have := List.find?_eq_none.mp h p (mem_pairsRM p)
  simp only [Bool.and_eq_true, Bool.not_eq_true', decide_eq_true_eq, not_and] at this
  exact this ⟨h1, h2⟩

lemma foldl_min_le_init (ys : List ℚ) (acc : ℚ) : ys.foldl min acc ≤ acc := by
  induction ys generalizing acc with
  | nil => exact le_refl _
  | cons y t ih => exact le_trans (ih (min acc y)) (min_le_left _ _)

lemma foldl_min_le_mem {x : ℚ} {ys : List ℚ} (h : x ∈ ys) (acc : ℚ) :
    ys.foldl min acc ≤ x := by
  induction ys generalizing acc with
  | nil => cases h
  | cons y t ih =>
    rcases List.mem_cons.mp h with rfl | hx
    · exact le_trans (foldl_min_le_init t (min acc x)) (min_le_right _ _)
    · exact ih hx _

lemma foldl_min_mem (ys : List ℚ) (acc : ℚ) :
    ys.foldl min acc = acc ∨ ys.foldl min acc ∈ ys := by
  induction ys generalizing acc with
  | nil => exact Or.inl rfl
  | cons y t ih =>
    rw [List.foldl_cons]
    rcases ih (min acc y) with h | h
    · rcases min_choice acc y with hm | hm
      · exact Or.inl (h.trans hm)
      · right
        rw [h, hm]
        exact List.mem_cons_self y t
    · exact Or.inr (List.mem_cons_of_mem _ h)

lemma pyMin_le {l : List ℚ} {x : ℚ} (h : x ∈ l) : pyMin l ≤ x := by
  cases l with
  | nil => cases h
  | cons y t =>
    rcases List.mem_cons.mp h with rfl | hx
    · exact foldl_min_le_init t x
    · exact foldl_min_le_mem hx y

lemma pyMin_mem {l : List ℚ} (h : l ≠ []) : pyMin l ∈ l := by
  cases l with
  | nil => exact absurd rfl h
  | cons y t =>
    rcases foldl_min_mem t y with h1 | h1
    · rw [pyMin, h1]
      exact List.mem_cons_self _ _
    · exact List.mem_cons_of_mem _ h1

/-- The master invariant of the main loop (holding between iterations),
relative to the original cost matrix `cost`.  The `rank` component is the
ghost witness that alternating star/prime chains strictly descend. -/
structure Inv (N : ℕ) (cost : Fin N → Fin N → ℚ) (s : HState N) : Prop where
  maskRange : ∀ i j, s.mask i j = 0 ∨ s.mask i j = 1 ∨ s.mask i j = 2
  starRowU : ∀ i j j', s.mask i j = 1 → s.mask i j' = 1 → j = j'
  starColU : ∀ i i' j, s.mask i j = 1 → s.mask i' j = 1 → i = i'
  primeRowU : ∀ i j j', s.mask i j = 2 → s.mask i j' = 2 → j = j'
  coverIffPrime : ∀ i, s.rowCover i = true ↔ ∃ j, s.mask i j = 2
  coverHasStar : ∀ i, s.rowCover i = true → ∃ j, s.mask i j = 1
  starUncovColCovRow : ∀ i j, s.mask i j = 1 → s.colCover j = false → s.rowCover i = true
  covColHasStar : ∀ j, s.colCover j = true → ∃ i, s.mask i j = 1
  covRowStarUncovCol : ∀ i j, s.rowCover i = true → s.mask i j = 1 → s.colCover j = false
  primeUncovCol : ∀ i j, s.mask i j = 2 → s.colCover j = false
  zeros : ∀ i j, s.mask i j ≠ 0 → s.C i j = 0
  nonneg : ∀ i j, 0 ≤ s.C i j
  pot : ∃ u v : Fin N → ℚ, ∀ i j, s.C i j = cost i j - u i - v j
  rank : ∃ rk : Fin N → ℕ, ∀ i j i', s.mask i j = 2 → s.mask i' j = 1 → rk i' < rk i

lemma starSet_card_le {N : ℕ} {s : HState N}
    (hrow : ∀ i j j', s.mask i j = 1 → s.mask i j' = 1 → j = j') :
    (starSet N s).card ≤ N := by
  have h : (starSet N s).card ≤ (Finset.univ : Finset (Fin N)).card := by
    apply Finset.card_le_card_of_injOn Prod.fst (fun p _ => Finset.mem_univ p.1)
    intro p hp q hq hpq
    have hp' := mem_starSet.mp (Finset.mem_coe.mp hp)
    have hq' := mem_starSet.mp (Finset.mem_coe.mp hq)
    exact Prod.ext hpq (hrow q.1 p.2 q.2 (hpq ▸ hp') hq')
  simpa using h

lemma find_star_in_row_isSome {N : ℕ} {s : HState N} {r : Fin N}
    (h : ∃ j, s.mask r j = 1) :
    ∃ j, find_star_in_row N s r = some j ∧ s.mask r j = 1 := by
  cases hf : find_star_in_row N s r with
  | none =>
    obtain ⟨j, hj⟩ := h
    exact absurd hj (find_star_in_row_none hf j)
  | some j => exact ⟨j, rfl, find_star_in_row_mask hf⟩

lemma coveredRows_card_le {N : ℕ} {s : HState N}
    (hstar : ∀ i, s.rowCover i = true → ∃ j, s.mask i j = 1) :
    (coveredRows N s).card ≤ (starSet N s).card := by
  apply Finset.card_le_card_of_injOn (fun i => (i, (find_star_in_row N s i).getD i))
  · intro i hi
    have hc : s.rowCover i = true := by simpa [coveredRows] using hi
    obtain ⟨j, hj, hm⟩ := find_star_in_row_isSome (hstar i hc)
    rw [mem_starSet, hj]
    exact hm
  · intro i hi i' hi' h
    exact congrArg Prod.fst h

lemma length_filter_finRange {N : ℕ} (p : Fin N → Bool) :
    ((List.finRange N).filter p).length = (Finset.univ.filter (fun j => p j = true)).card := by
  rw [← List.toFinset_card_of_nodup ((List.nodup_finRange N).filter _)]
  congr 1
  ext j
  simp [List.mem_filter]

lemma reduced_nonneg {N : ℕ} (cost : Fin N → Fin N → ℚ) (i j : Fin N) :
    0 ≤ reduceCols N (reduceRows N cost) i j := by
  have hmem : reduceRows N cost i j ∈
      (List.finRange N).map (fun k => reduceRows N cost k j) :=
    List.mem_map.mpr ⟨i, List.mem_finRange _, rfl⟩
  have h := pyMin_le hmem
  simp only [reduceCols]
  linarith

lemma reduced_pot {N : ℕ} (cost : Fin N → Fin N → ℚ) :
    ∃ u v : Fin N → ℚ,
      ∀ i j, reduceCols N (reduceRows N cost) i j = cost i j - u i - v j := by
  refine ⟨fun i => pyMin ((List.finRange N).map (fun k => cost i k)),
          fun j => pyMin ((List.finRange N).map (fun k => reduceRows N cost k j)), ?_⟩
  intro i j
  simp only [reduceCols, reduceRows]

lemma foldl_inv {α β : Type*} (P : α → Prop) (f : α → β → α) (l : List β) (init : α)
    (h0 : P init) (hstep : ∀ a b, P a → P (f a b)) : P (l.foldl f init) := by
  induction l generalizing init with
  | nil => exact h0
  | cons b t ih => exact ih (f init b) (hstep init b h0)

/-- Facts established by the initial greedy starring pass. -/
def InitP (N : ℕ) (C0 : Fin N → Fin N → ℚ) (s : HState N) : Prop :=
  (∀ i j, s.mask i j = 0 ∨ s.mask i j = 1) ∧
  (∀ i j, s.mask i j = 1 → s.C i j = 0 ∧ s.rowCover i = true ∧ s.colCover j = true) ∧
  (∀ i j j', s.mask i j = 1 → s.mask i j' = 1 → j = j') ∧
  (∀ i i' j, s.mask i j = 1 → s.mask i' j = 1 → i = i') ∧
  s.C = C0

lemma initStars_spec {N : ℕ} (C0 : Fin N → Fin N → ℚ) : InitP N C0 (initStars N C0) := by
  apply foldl_inv (InitP N C0)
  · exact ⟨fun i j => Or.inl rfl, fun i j h => absurd h (by simp),
      fun i j j' h h' => absurd h (by simp),
      fun i i' j h h' => absurd h (by simp), rfl⟩
  · rintro s p ⟨hr, hs, hru, hcu, hC⟩
    by_cases hc : s.C p.1 p.2 = 0 ∧ s.rowCover p.1 = false ∧ s.colCover p.2 = false
    · rw [if_pos hc]
      refine ⟨?_, ?_, ?_, ?_, hC⟩
      · intro i j
        dsimp only
        split_ifs with h
        · exact Or.inr rfl
        · exact hr i j
      · intro i j hm
        dsimp only at hm ⊢
        split_ifs at hm with h
        · obtain ⟨h1, h2⟩ := h
          subst h1
          subst h2
          exact ⟨hc.1, by rw [if_pos rfl], by rw [if_pos rfl]⟩
        · have := hs i j hm
          refine ⟨this.1, ?_, ?_⟩
          · split_ifs with hi
            · rfl
            · exact this.2.1
          · split_ifs with hj
            · rfl
            · exact this.2.2
      · intro i j j' hm hm'
        dsimp only at hm hm'
        split_ifs at hm with h <;> split_ifs at hm' with h'
        · exact h.2.trans h'.2.symm
        · obtain ⟨h1, h2⟩ := h
          subst h1
          exact absurd (hs p.1 j' hm').2.1 (by rw [hc.2.1]; simp)
        · obtain ⟨h1, h2⟩ := h'
          subst h1
          exact absurd (hs p.1 j hm).2.1 (by rw [hc.2.1]; simp)
        · exact hru i j j' hm hm'
      · intro i i' j hm hm'
        dsimp only at hm hm'
        split_ifs at hm with h <;> split_ifs at hm' with h'
        · exact h.1.trans h'.1.symm
        · obtain ⟨h1, h2⟩ := h
          subst h2
          exact absurd (hs i' p.2 hm').2.2 (by rw [hc.2.2]; simp)
        · obtain ⟨h1, h2⟩ := h'
          subst h2
          exact absurd (hs i p.2 hm).2.2 (by rw [hc.2.2]; simp)
        · exact hcu i i' j hm hm'
    · rw [if_neg hc]
      exact ⟨hr, hs, hru, hcu, hC⟩

/-- Starting a phase: covers are all clear, the stars are independent
zeros; `cover_star_columns` then yields the full invariant, with the
returned count equal to the number of stars. -/
lemma phase_start_inv {N : ℕ} (cost : Fin N → Fin N → ℚ) (s : HState N)
    (hmask : ∀ i j, s.mask i j = 0 ∨ s.mask i j = 1)
    (hrowU : ∀ i j j', s.mask i j = 1 → s.mask i j' = 1 → j = j')
    (hcolU : ∀ i i' j, s.mask i j = 1 → s.mask i' j = 1 → i = i')
    (hzeros : ∀ i j, s.mask i j = 1 → s.C i j = 0)
    (hrc : ∀ i, s.rowCover i = false)
    (hcc : ∀ j, s.colCover j = false)
    (hnn : ∀ i j, 0 ≤ s.C i j)
    (hpot : ∃ u v : Fin N → ℚ, ∀ i j, s.C i j = cost i j - u i - v j) :
    Inv N cost (cover_star_columns N s).1 ∧
    (cover_star_columns N s).2 = (starSet N (cover_star_columns N s).1).card := by
  have hnp : ∀ i j, s.mask i j ≠ 2 := by
    intro i j h
    rcases hmask i j with h' | h' <;> rw [h'] at h <;> cases h
  have hcc' : ∀ j, (cover_star_columns N s).1.colCover j = true ↔ ∃ i, s.mask i j = 1 := by
    intro j
    simp only [cover_star_columns, hcc j, Bool.false_or, List.any_eq_true, beq_iff_eq]
    constructor
    · rintro ⟨i, _, h⟩
      exact ⟨i, h⟩
    · rintro ⟨i, h⟩
      exact ⟨i, List.mem_finRange _, h⟩
  constructor
  · refine ⟨?_, hrowU, hcolU, ?_, ?_, ?_, ?_, ?_, ?_, ?_, ?_, hnn, hpot, ?_⟩
    · intro i j
      rcases hmask i j with h | h
      · exact Or.inl h
      · exact Or.inr (Or.inl h)
    · intro i j j' h
      exact absurd h (hnp i j)
    · intro i
      rw [show (cover_star_columns N s).1.rowCover i = s.rowCover i from rfl, hrc i]
      constructor
      · intro h
        cases h
      · rintro ⟨j, hj⟩
        exact absurd hj (hnp i j)
    · intro i h
      rw [show (cover_star_columns N s).1.rowCover i = s.rowCover i from rfl, hrc i] at h
      cases h
    · intro i j hm hcov
      have := (hcc' j).mpr ⟨i, hm⟩
      rw [hcov] at this
      cases this
    · intro j h
      exact (hcc' j).mp h
    · intro i j h
      rw [show (cover_star_columns N s).1.rowCover i = s.rowCover i from rfl, hrc i] at h
      cases h
    · intro i j h
      exact absurd h (hnp i j)
    · intro i j h
      rcases hmask i j with h' | h'
      · exact absurd h' h
      · exact hzeros i j h'
    · exact ⟨fun _ => 0, fun i j i' h => absurd h (hnp i j)⟩
  · have hcnt : (cover_star_columns N s).2 =
        (Finset.univ.filter
          (fun j => (cover_star_columns N s).1.colCover j = true)).card := by
      simp only [cover_star_columns]
      exact length_filter_finRange _
    rw [hcnt]
    symm
    apply Finset.card_bij (fun (p : Fin N × Fin N) _ => p.2)
    · intro p hp
      rw [mem_starSet] at hp
      simp only [Finset.mem_filter, Finset.mem_univ, true_and]
      exact (hcc' p.2).mpr ⟨p.1, hp⟩
    · intro p hp q hq h
      rw [mem_starSet] at hp hq
      have := hcolU p.1 q.1 p.2 hp (h ▸ hq)
      exact Prod.ext this (by exact h)
    · intro j hj
      simp only [Finset.mem_filter, Finset.mem_univ, true_and] at hj
      obtain ⟨i, hi⟩ := (hcc' j).mp hj
      exact ⟨(i, j), mem_starSet.mpr hi, rfl⟩

/-! ### The adjustment step and the inner zero-finding loop -/

/-- The set of covered columns of a state. -/
def coveredCols (N : ℕ) (s : HState N) : Finset (Fin N) :=
  Finset.univ.filter (fun j => s.colCover j = true)

lemma find_star_in_col_isSome {N : ℕ} {s : HState N} {c : Fin N}
    (h : ∃ i, s.mask i c = 1) :
    ∃ i, find_star_in_col N s c = some i ∧ s.mask i c = 1 := by
  cases hf : find_star_in_col N s c with
  | none =>
    obtain ⟨i, hi⟩ := h
    exact absurd hi (find_star_in_col_none hf i)
  | some i => exact ⟨i, rfl, find_star_in_col_mask hf⟩

lemma coveredCols_card_le {N : ℕ} {s : HState N}
    (hstar : ∀ j, s.colCover j = true → ∃ i, s.mask i j = 1) :
    (coveredCols N s).card ≤ (starSet N s).card := by
  apply Finset.card_le_card_of_injOn (fun j => ((find_star_in_col N s j).getD j, j))
  · intro j hj
    have hc : s.colCover j = true := by simpa [coveredCols] using hj
    obtain ⟨i, hi, hm⟩ := find_star_in_col_isSome (hstar j hc)
    rw [mem_starSet, hi]
    exact hm
  · intro j hj j' hj' h
    exact congrArg Prod.snd h

lemma exists_uncovered_row {N : ℕ} {cost : Fin N → Fin N → ℚ} {s : HState N} {count : ℕ}
    (hinv : Inv N cost s) (hcount : count = (starSet N s).card) (hlt : count < N) :
    ∃ i, s.rowCover i = false := by
  have h1 : (coveredRows N s).card < N := by
    have := coveredRows_card_le (s := s) hinv.coverHasStar
    omega
  have h2 : (coveredRows N s) ≠ Finset.univ := by
    intro h
    rw [h, Finset.card_univ, Fintype.card_fin] at h1
    exact lt_irrefl _ h1
  obtain ⟨i, hi⟩ := not_forall.mp (fun hall => h2 (Finset.eq_univ_iff_forall.mpr hall))
  exact ⟨i, by simpa [coveredRows, Bool.not_eq_true] using hi⟩

lemma exists_uncovered_col {N : ℕ} {cost : Fin N → Fin N → ℚ} {s : HState N} {count : ℕ}
    (hinv : Inv N cost s) (hcount : count = (starSet N s).card) (hlt : count < N) :
    ∃ j, s.colCover j = false := by
  have h1 : (coveredCols N s).card < N := by
    have := coveredCols_card_le (s := s) hinv.covColHasStar
    omega
  have h2 : (coveredCols N s) ≠ Finset.univ := by
    intro h
    rw [h, Finset.card_univ, Fintype.card_fin] at h1
    exact lt_irrefl _ h1
  obtain ⟨j, hj⟩ := not_forall.mp (fun hall => h2 (Finset.eq_univ_iff_forall.mpr hall))
  exact ⟨j, by simpa [coveredCols, Bool.not_eq_true] using hj⟩

lemma smallest_uncovered_nonneg {N : ℕ} {s : HState N}
    (hnn : ∀ i j, 0 ≤ s.C i j) : 0 ≤ smallest_uncovered N s := by
  unfold smallest_uncovered
  cases hl : ((pairsRM N).filter (fun p => !s.rowCover p.1 && !s.colCover p.2)).map
      (fun p => s.C p.1 p.2) with
  | nil => exact le_refl 0
  | cons x t =>
    have hmem := pyMin_mem (l := x :: t) (by simp)
    rw [← hl] at hmem
    obtain ⟨p, _, hp⟩ := List.mem_map.mp hmem
    rw [← hl, ← hp]
    exact hnn p.1 p.2

lemma smallest_uncovered_le {N : ℕ} {s : HState N} {i j : Fin N}
    (hr : s.rowCover i = false) (hc : s.colCover j = false) :
    smallest_uncovered N s ≤ s.C i j := by
  apply pyMin_le
  apply List.mem_map.mpr
  refine ⟨(i, j), ?_, rfl⟩
  apply List.mem_filter.mpr
  exact ⟨mem_pairsRM _, by simp [hr, hc]⟩

lemma smallest_uncovered_attained {N : ℕ} {s : HState N}
    (h : ∃ p : Fin N × Fin N, s.rowCover p.1 = false ∧ s.colCover p.2 = false) :
    ∃ p : Fin N × Fin N, s.rowCover p.1 = false ∧ s.colCover p.2 = false ∧
      s.C p.1 p.2 = smallest_uncovered N s := by
  obtain ⟨q, hq1, hq2⟩ := h
  have hne : ((pairsRM N).filter (fun p => !s.rowCover p.1 && !s.colCover p.2)).map
      (fun p => s.C p.1 p.2) ≠ [] := by
    simp only [ne_eq, List.map_eq_nil, List.filter_eq_nil, not_forall]
    exact ⟨q, mem_pairsRM q, by simp [hq1, hq2]⟩
  have hmem := pyMin_mem hne
  obtain ⟨p, hpf, hp⟩ := List.mem_map.mp hmem
  have hpc := List.mem_filter.mp hpf
  have hcond := hpc.2
  simp only [Bool.and_eq_true, Bool.not_eq_true'] at hcond
  exact ⟨p, hcond.1, hcond.2, hp⟩

/-- `adjust` with the smallest uncovered value preserves the invariant
(mask and covers are untouched; the reduced matrix stays nonnegative,
marked cells stay zeros, and the potential shifts by the adjustment). -/
lemma adjust_inv {N : ℕ} {cost : Fin N → Fin N → ℚ} {s : HState N}
    (hinv : Inv N cost s) :
    Inv N cost (adjust N s (smallest_uncovered N s)) := by
  set m := smallest_uncovered N s with hm
  have hm0 : 0 ≤ m := smallest_uncovered_nonneg hinv.nonneg
  have hCeq : ∀ i j, (adjust N s m).C i j =
      (if s.rowCover i then s.C i j + m else s.C i j) -
      (if s.colCover j then 0 else m) := fun i j => rfl
  refine ⟨hinv.maskRange, hinv.starRowU, hinv.starColU, hinv.primeRowU,
    hinv.coverIffPrime, hinv.coverHasStar, hinv.starUncovColCovRow,
    hinv.covColHasStar, hinv.covRowStarUncovCol, hinv.primeUncovCol, ?_, ?_, ?_,
    hinv.rank⟩
  · intro i j hmk
    rw [hCeq i j]
    rcases hinv.maskRange i j with h0 | h1 | h2
    · exact absurd h0 hmk
    · by_cases hc : s.colCover j = true
      · have hr : s.rowCover i = false := by
          by_cases hr' : s.rowCover i = true
          · exact absurd hc (by rw [hinv.covRowStarUncovCol i j hr' h1]; simp)
          · exact Bool.not_eq_true _ ▸ (by simpa using hr')
        rw [if_neg (by rw [hr]; simp), if_pos hc, hinv.zeros i j (by rw [h1]; simp)]
        ring
      · have hc' : s.colCover j = false := by simpa using hc
        have hr := hinv.starUncovColCovRow i j h1 hc'
        rw [if_pos hr, if_neg (by rw [hc']; simp), hinv.zeros i j (by rw [h1]; simp)]
        ring
    · have hc := hinv.primeUncovCol i j h2
      have hr := (hinv.coverIffPrime i).mpr ⟨j, h2⟩
      rw [if_pos hr, if_neg (by rw [hc]; simp), hinv.zeros i j (by rw [h2]; simp)]
      ring
  · intro i j
    rw [hCeq i j]
    by_cases hr : s.rowCover i = true <;> by_cases hc : s.colCover j = true
    · rw [if_pos hr, if_pos hc]
      have := hinv.nonneg i j
      linarith
    · rw [if_pos hr, if_neg hc]
      have := hinv.nonneg i j
      linarith
    · rw [if_neg hr, if_pos hc]
      have := hinv.nonneg i j
      linarith
    · rw [if_neg hr, if_neg hc]
      have := smallest_uncovered_le (s := s) (i := i) (j := j)
        (by simpa using hr) (by simpa using hc)
      rw [← hm] at this
      linarith
  · obtain ⟨u, v, huv⟩ := hinv.pot
    refine ⟨fun i => u i - (if s.rowCover i then m else 0),
            fun j => v j + (if s.colCover j then 0 else m), ?_⟩
    intro i j
    rw [hCeq i j, huv i j]
    cases hrb : s.rowCover i <;> cases hcb : s.colCover j <;>
      simp [hrb, hcb] <;> ring

/-- The inner loop: under the invariant with fewer than `N` columns
counted, it returns an uncovered zero after at most one adjustment,
preserving the invariant without touching mask or covers. -/
lemma findZeroLoop_spec {N : ℕ} {cost : Fin N → Fin N → ℚ} {s : HState N}
    {count : ℕ} (hinv : Inv N cost s) (hcount : count = (starSet N s).card)
    (hlt : count < N) (k : ℕ) :
    ∃ s' p, findZeroLoop N (k + 2) s = some (s', p) ∧ Inv N cost s' ∧
      s'.mask = s.mask ∧ s'.rowCover = s.rowCover ∧ s'.colCover = s.colCover ∧
      s'.rowCover p.1 = false ∧ s'.colCover p.2 = false ∧ s'.C p.1 p.2 = 0 := by
  show ∃ s' p, (match find_a_zero N s with
    | some p => some (s, p)
    | Option.none => findZeroLoop N (k + 1) (adjust N s (smallest_uncovered N s))) =
      some (s', p) ∧ _
  cases hf : find_a_zero N s with
  | some p =>
    obtain ⟨h1, h2, h3⟩ := find_a_zero_spec hf
    exact ⟨s, p, rfl, hinv, rfl, rfl, rfl, h1, h2, h3⟩
  | none =>
    obtain ⟨i0, hi0⟩ := exists_uncovered_row hinv hcount hlt
    obtain ⟨j0, hj0⟩ := exists_uncovered_col hinv hcount hlt
    obtain ⟨q, hq1, hq2, hq3⟩ := smallest_uncovered_attained
      (s := s) ⟨(i0, j0), hi0, hj0⟩
    set s2 := adjust N s (smallest_uncovered N s) with hs2
    have hzero : s2.C q.1 q.2 = 0 := by
      show (if s.rowCover q.1 then s.C q.1 q.2 + _ else s.C q.1 q.2) -
        (if s.colCover q.2 then 0 else _) = 0
      rw [if_neg (by rw [hq1]; simp), if_neg (by rw [hq2]; simp), hq3]
      ring
    have hfind : ∃ p', find_a_zero N s2 = some p' := by
      cases hf2 : find_a_zero N s2 with
      | some p' => exact ⟨p', rfl⟩
      | none => exact absurd hzero (find_a_zero_none hf2 q hq1 hq2)
    obtain ⟨p', hp'⟩ := hfind
    obtain ⟨h1, h2, h3⟩ := find_a_zero_spec hp'
    refine ⟨s2, p', ?_, adjust_inv hinv, rfl, rfl, rfl, h1, h2, h3⟩
    show (findZeroLoop N (k + 1) s2) = some (s2, p')
    show (match find_a_zero N s2 with
      | some p => some (s2, p)
      | Option.none => findZeroLoop N k (adjust N s2 (smallest_uncovered N s2))) =
        some (s2, p')
    rw [hp']

/-! ### The star branch of the main loop -/

/-- Priming an uncovered zero whose row contains a star, then covering
that row and uncovering the star's column, preserves the invariant,
keeps the stars unchanged, and covers one more row. -/
lemma star_branch {N : ℕ} {cost : Fin N → Fin N → ℚ} {s1 : HState N}
    {z : Fin N × Fin N} {star_col : Fin N}
    (hinv : Inv N cost s1)
    (hzr : s1.rowCover z.1 = false) (hzc : s1.colCover z.2 = false)
    (hz0 : s1.C z.1 z.2 = 0)
    (hstar : find_star_in_row N
      { s1 with mask := fun i j => if i = z.1 ∧ j = z.2 then 2 else s1.mask i j } z.1
      = some star_col) :
    Inv N cost
      { s1 with
        mask := fun i j => if i = z.1 ∧ j = z.2 then 2 else s1.mask i j,
        rowCover := fun i => if i = z.1 then true else s1.rowCover i,
        colCover := fun j => if j = star_col then false else s1.colCover j } ∧
    starSet N
      { s1 with
        mask := fun i j => if i = z.1 ∧ j = z.2 then 2 else s1.mask i j,
        rowCover := fun i => if i = z.1 then true else s1.rowCover i,
        colCover := fun j => if j = star_col then false else s1.colCover j } =
      starSet N s1 ∧
    (coveredRows N
      { s1 with
        mask := fun i j => if i = z.1 ∧ j = z.2 then 2 else s1.mask i j,
        rowCover := fun i => if i = z.1 then true else s1.rowCover i,
        colCover := fun j => if j = star_col then false else s1.colCover j }).card =
      (coveredRows N s1).card + 1 := by
  have hnoprime_row : ∀ j, s1.mask z.1 j ≠ 2 := by
    intro j hj
    have := (hinv.coverIffPrime z.1).mpr ⟨j, hj⟩
    rw [hzr] at this
    cases this
  have hz_nostar : s1.mask z.1 z.2 ≠ 1 := by
    intro h
    have := hinv.starUncovColCovRow z.1 z.2 h hzc
    rw [hzr] at this
    cases this
  have hstar1 : s1.mask z.1 star_col = 1 := by
    have h := find_star_in_row_mask hstar
    dsimp only at h
    split_ifs at h with hc
    · cases h
    · exact h
  have hzc_ne : z.2 ≠ star_col := by
    intro h
    rw [← h] at hstar1
    exact hz_nostar hstar1
  have hcol_cov : s1.colCover star_col = true := by
    by_cases h : s1.colCover star_col = true
    · exact h
    · have := hinv.starUncovColCovRow z.1 star_col hstar1 (by simpa using h)
      rw [hzr] at this
      cases this
  -- stars of the primed state coincide with those of `s1`
  have hm1 : ∀ i j, (if i = z.1 ∧ j = z.2 then 2 else s1.mask i j) = 1 ↔
      s1.mask i j = 1 := by
    intro i j
    split_ifs with h
    · obtain ⟨h1, h2⟩ := h
      subst h1
      subst h2
      simp only [OfNat.ofNat_ne_one, false_iff]
      exact hz_nostar
    · exact Iff.rfl
  -- primes of the primed state: the old ones plus `z`
  have hm2 : ∀ i j, (if i = z.1 ∧ j = z.2 then 2 else s1.mask i j) = 2 ↔
      (s1.mask i j = 2 ∨ (i = z.1 ∧ j = z.2)) := by
    intro i j
    split_ifs with h
    · exact iff_of_true rfl (Or.inr h)
    · constructor
      · exact fun hh => Or.inl hh
      · rintro (hh | hh)
        · exact hh
        · exact absurd hh h
  refine ⟨?_, ?_, ?_⟩
  · refine ⟨?_, ?_, ?_, ?_, ?_, ?_, ?_, ?_, ?_, ?_, ?_, hinv.nonneg, hinv.pot, ?_⟩
    · intro i j
      dsimp only
      split_ifs with h
      · exact Or.inr (Or.inr rfl)
      · exact hinv.maskRange i j
    · intro i j j' h h'
      exact hinv.starRowU i j j' ((hm1 i j).mp h) ((hm1 i j').mp h')
    · intro i i' j h h'
      exact hinv.starColU i i' j ((hm1 i j).mp h) ((hm1 i' j).mp h')
    · intro i j j' h h'
      rcases (hm2 i j).mp h with h2 | h2 <;> rcases (hm2 i j').mp h' with h2' | h2'
      · exact hinv.primeRowU i j j' h2 h2'
      · exact absurd h2 (h2'.1 ▸ hnoprime_row j)
      · exact absurd h2' (h2.1 ▸ hnoprime_row j')
      · exact h2.2.trans h2'.2.symm
    · intro i
      dsimp only
      constructor
      · intro h
        split_ifs at h with hi
        · exact ⟨z.2, (hm2 i z.2).mpr (Or.inr ⟨hi, rfl⟩)⟩
        · obtain ⟨j, hj⟩ := (hinv.coverIffPrime i).mp h
          exact ⟨j, (hm2 i j).mpr (Or.inl hj)⟩
      · rintro ⟨j, hj⟩
        rcases (hm2 i j).mp hj with h2 | h2
        · have := (hinv.coverIffPrime i).mpr ⟨j, h2⟩
          split_ifs with hi
          · rfl
          · exact this
        · rw [if_pos h2.1]
    · intro i h
      dsimp only at h ⊢
      split_ifs at h with hi
      · exact ⟨star_col, (hm1 i star_col).mpr (hi ▸ hstar1)⟩
      · obtain ⟨j, hj⟩ := hinv.coverHasStar i h
        exact ⟨j, (hm1 i j).mpr hj⟩
    · intro i j h hc
      dsimp only at hc ⊢
      have hij := (hm1 i j).mp h
      split_ifs at hc with hj
      · have hii : i = z.1 := hinv.starColU i z.1 star_col (hj ▸ hij) hstar1
        rw [if_pos hii]
      · have := hinv.starUncovColCovRow i j hij hc
        split_ifs with hi
        · rfl
        · exact this
    · intro j h
      dsimp only at h
      split_ifs at h with hj
      obtain ⟨i, hi⟩ := hinv.covColHasStar j h
      exact ⟨i, (hm1 i j).mpr hi⟩
    · intro i j h hm
      dsimp only at h ⊢
      have hij := (hm1 i j).mp hm
      split_ifs with hj
      · rfl
      · split_ifs at h with hi
        · exact absurd (hinv.starRowU z.1 j star_col (hi ▸ hij) hstar1) hj
        · exact hinv.covRowStarUncovCol i j h hij
    · intro i j h
      dsimp only
      rcases (hm2 i j).mp h with h2 | h2
      · have := hinv.primeUncovCol i j h2
        split_ifs with hj
        · rfl
        · exact this
      · obtain ⟨h1, h2'⟩ := h2
        subst h1
        subst h2'
        rw [if_neg (fun hh => hzc_ne hh), hzc]
    · intro i j h
      dsimp only at h
      split_ifs at h with hij
      · obtain ⟨h1, h2⟩ := hij
        subst h1
        subst h2
        exact hz0
      · exact hinv.zeros i j h
    · obtain ⟨rk, hrk⟩ := hinv.rank
      refine ⟨fun i => if i = z.1 then (Finset.univ.sup rk) + 1 else rk i, ?_⟩
      intro i j i' hp hs
      dsimp only
      have hs1 := (hm1 i' j).mp hs
      have hi' : i' ≠ z.1 := by
        intro hh
        rcases (hm2 i j).mp hp with h2 | h2
        · have hcf := hinv.primeUncovCol i j h2
          have hcov := hinv.starUncovColCovRow i' j hs1 hcf
          rw [hh, hzr] at hcov
          cases hcov
        · rw [h2.2] at hs1
          rw [hh] at hs1
          exact hz_nostar hs1
      rcases (hm2 i j).mp hp with h2 | h2
      · have hi : i ≠ z.1 := fun h => (h ▸ hnoprime_row j) h2
        rw [if_neg hi', if_neg hi]
        exact hrk i j i' h2 hs1
      · rw [if_neg hi', if_pos h2.1]
        exact Nat.lt_succ_of_le (Finset.le_sup (Finset.mem_univ i'))
  · ext p
    rw [mem_starSet, mem_starSet]
    exact hm1 p.1 p.2
  · have : coveredRows N
        { s1 with
          mask := fun i j => if i = z.1 ∧ j = z.2 then 2 else s1.mask i j,
          rowCover := fun i => if i = z.1 then true else s1.rowCover i,
          colCover := fun j => if j = star_col then false else s1.colCover j } =
        insert z.1 (coveredRows N s1) := by
      ext i
      simp only [coveredRows, Finset.mem_filter, Finset.mem_univ, true_and,
        Finset.mem_insert]
      split_ifs with hi
      · simp [hi]
      · simp [hi]
    rw [this, Finset.card_insert_of_not_mem (by simp [coveredRows, hzr])]

/-! ### The augment branch: the alternating star/prime chain -/

/-- The shape of the tail of an augmenting path built from column `c`:
either the column has no star, or it has the star `(r, c)`, the row `r`
has the prime `(r, c')`, and the chain continues from column `c'`. -/
inductive Chain (N : ℕ) (s : HState N) : Fin N → List (Fin N × Fin N) → Prop where
  | nil : ∀ c, (∀ i, s.mask i c ≠ 1) → Chain N s c []
  | cons : ∀ c r c' L, find_star_in_col N s c = some r →
      find_prime_in_row N s r = some c' →
      Chain N s c' L → Chain N s c ((r, c) :: (r, c') :: L)

/-- The path-building loop terminates with a chain: each visited star row
has strictly smaller rank than all previously visited rows, so rows never
repeat and fuel `N + 1` suffices. -/
lemma buildPath_spec {N : ℕ} {s : HState N} (rk : Fin N → ℕ)
    (hrk : ∀ i j i', s.mask i j = 2 → s.mask i' j = 1 → rk i' < rk i)
    (hps : ∀ i c, s.colCover c = false → s.mask i c = 1 → ∃ j, s.mask i j = 2)
    (hpc : ∀ i j, s.mask i j = 2 → s.colCover j = false) :
    ∀ fuel (V : Finset (Fin N)) (c : Fin N) (acc : List (Fin N × Fin N)),
      s.colCover c = false →
      (∀ r', s.mask r' c = 1 → ∀ v ∈ V, rk r' < rk v) →
      N - V.card < fuel →
      ∃ L, buildPath N fuel s c acc = some (acc ++ L) ∧ Chain N s c L := by
  intro fuel
  induction fuel with
  | zero => intro V c acc _ _ h; omega
  | succ f ih =>
    intro V c acc hcu hV hfuel
    show ∃ L, (match find_star_in_col N s c with
      | Option.none => some acc
      | some star_row =>
        match find_prime_in_row N s star_row with
        | Option.none => Option.none
        | some prime_col =>
            buildPath N f s prime_col (acc ++ [(star_row, c), (star_row, prime_col)])) =
      some (acc ++ L) ∧ Chain N s c L
    cases hf : find_star_in_col N s c with
    | none =>
      refine ⟨[], by simp, Chain.nil c (find_star_in_col_none hf)⟩
    | some r =>
      have hrc : s.mask r c = 1 := find_star_in_col_mask hf
      obtain ⟨j0, hj0⟩ := hps r c hcu hrc
      cases hp : find_prime_in_row N s r with
      | none => exact absurd hj0 (find_prime_in_row_none hp j0)
      | some c' =>
        have hrc' : s.mask r c' = 2 := find_prime_in_row_mask hp
        have hrV : r ∉ V := fun hmem => lt_irrefl _ (hV r hrc r hmem)
        have hVcard : V.card < N := by
          by_contra h
          push_neg at h
          have hc : V.card = Fintype.card (Fin N) := by
            rw [Fintype.card_fin]
            exact le_antisymm
              (by simpa using Finset.card_le_card (Finset.subset_univ V)) h
          exact hrV (Finset.eq_univ_of_card V hc ▸ Finset.mem_univ r)
        have hV' : ∀ r'', s.mask r'' c' = 1 → ∀ v ∈ insert r V, rk r'' < rk v := by
          intro r'' h'' v hv
          rcases Finset.mem_insert.mp hv with hv1 | hv2
          · rw [hv1]
            exact hrk r c' r'' hrc' h''
          · exact lt_trans (hrk r c' r'' hrc' h'') (hV r hrc v hv2)
        have hfuel' : N - (insert r V).card < f := by
          rw [Finset.card_insert_of_not_mem hrV]
          omega
        obtain ⟨L, hL, hchain⟩ := ih (insert r V) c'
          (acc ++ [(r, c), (r, c')]) (hpc r c' hrc') hV' hfuel'
        refine ⟨(r, c) :: (r, c') :: L, ?_, Chain.cons c r c' L hf hp hchain⟩
        simp only [hp]
        rw [hL]
        simp

/-- Structural facts about a chain: every star of the starting column is
on it; stars sharing a row or a column with one of its primes are on it;
it has equally many stars and primes; its cells are distinct marked
cells; and all its rows rank at most the star row of the starting
column. -/
lemma chain_facts {N : ℕ} {s : HState N} (rk : Fin N → ℕ)
    (hrk : ∀ i j i', s.mask i j = 2 → s.mask i' j = 1 → rk i' < rk i)
    (hrowU : ∀ i j j', s.mask i j = 1 → s.mask i j' = 1 → j = j')
    (hcolU : ∀ i i' j, s.mask i j = 1 → s.mask i' j = 1 → i = i') :
    ∀ c L, Chain N s c L →
      (∀ i, s.mask i c = 1 → (i, c) ∈ L) ∧
      (∀ p ∈ L, s.mask p.1 p.2 = 2 → ∀ j', s.mask p.1 j' = 1 → (p.1, j') ∈ L) ∧
      (∀ p ∈ L, s.mask p.1 p.2 = 2 → ∀ i', s.mask i' p.2 = 1 → (i', p.2) ∈ L) ∧
      ((L.filter (fun p => decide (s.mask p.1 p.2 = 2))).length =
        (L.filter (fun p => decide (s.mask p.1 p.2 = 1))).length) ∧
      L.Nodup ∧
      (∀ p ∈ L, s.mask p.1 p.2 = 1 ∨ s.mask p.1 p.2 = 2) ∧
      (∀ p ∈ L, ∀ i, s.mask i c = 1 → rk p.1 ≤ rk i) ∧
      (∀ p ∈ L, s.mask p.1 p.2 = 2 → p.2 ≠ c) ∧
      (∀ p ∈ L, ∀ q ∈ L, s.mask p.1 p.2 = 2 → s.mask q.1 q.2 = 2 →
        p.2 = q.2 → p = q) := by
  intro c L hch
  induction hch with
  | nil c h =>
    refine ⟨fun i hi => absurd hi (h i), ?_, ?_, rfl, List.nodup_nil, ?_, ?_, ?_, ?_⟩ <;>
      intro p hp <;> cases hp
  | cons c r c' L hf hp hch ih =>
    obtain ⟨ih1, ih2, ih3, ih4, ih5, ih6, ih7, ih8, ih9⟩ := ih
    have hrc : s.mask r c = 1 := find_star_in_col_mask hf
    have hrc' : s.mask r c' = 2 := find_prime_in_row_mask hp
    have hcc' : c ≠ c' := by
      intro h
      rw [← h] at hrc'
      rw [hrc] at hrc'
      cases hrc'
    have hrL : ∀ p ∈ L, rk p.1 < rk r := by
      intro p hpL
      cases hch with
      | nil c2 h2 =>
        cases hpL
      | cons c2 r2 c2' L2 hf2 hp2 hch2 =>
        have hstar2 : s.mask r2 c' = 1 := find_star_in_col_mask hf2
        exact lt_of_le_of_lt (ih7 p hpL r2 hstar2) (hrk r c' r2 hrc' hstar2)
    refine ⟨?_, ?_, ?_, ?_, ?_, ?_, ?_, ?_, ?_⟩
    · intro i hi
      rw [hcolU i r c hi hrc]
      exact List.mem_cons_self _ _
    · intro p hpmem hpp j' hj'
      rcases List.mem_cons.mp hpmem with rfl | hpmem
      · rw [hrc] at hpp
        cases hpp
      rcases List.mem_cons.mp hpmem with rfl | hpmem
      · have : j' = c := hrowU r j' c hj' hrc
        rw [this]
        exact List.mem_cons_self _ _
      · exact List.mem_cons_of_mem _ (List.mem_cons_of_mem _ (ih2 p hpmem hpp j' hj'))
    · intro p hpmem hpp i' hi'
      rcases List.mem_cons.mp hpmem with rfl | hpmem
      · rw [hrc] at hpp
        cases hpp
      rcases List.mem_cons.mp hpmem with rfl | hpmem
      · exact List.mem_cons_of_mem _ (List.mem_cons_of_mem _ (ih1 i' hi'))
      · exact List.mem_cons_of_mem _ (List.mem_cons_of_mem _ (ih3 p hpmem hpp i' hi'))
    · rw [List.filter_cons, List.filter_cons, List.filter_cons, List.filter_cons]
      simp only [hrc, hrc']
      norm_num
      exact ih4
    · refine List.nodup_cons.mpr ⟨?_, List.nodup_cons.mpr ⟨?_, ih5⟩⟩
      · intro hmem
        rcases List.mem_cons.mp hmem with heq | hmem
        · exact hcc' (congrArg Prod.snd heq)
        · exact lt_irrefl _ (hrL (r, c) hmem)
      · intro hmem
        exact lt_irrefl _ (hrL (r, c') hmem)
    · intro p hpmem
      rcases List.mem_cons.mp hpmem with rfl | hpmem
      · exact Or.inl hrc
      rcases List.mem_cons.mp hpmem with rfl | hpmem
      · exact Or.inr hrc'
      · exact ih6 p hpmem
    · intro p hpmem i hi
      have hir : i = r := hcolU i r c hi hrc
      rw [hir]
      rcases List.mem_cons.mp hpmem with rfl | hpmem
      · exact le_refl _
      rcases List.mem_cons.mp hpmem with rfl | hpmem
      · exact le_refl _
      · exact le_of_lt (hrL p hpmem)
    · intro p hpmem hpp
      rcases List.mem_cons.mp hpmem with rfl | hpmem
      · rw [hrc] at hpp
        cases hpp
      rcases List.mem_cons.mp hpmem with rfl | hpmem
      · exact fun hc => hcc' hc.symm
      · intro hc
        have hmem := ih3 p hpmem hpp r (by rw [hc]; exact hrc)
        exact lt_irrefl _ (hrL (r, p.2) hmem)
    · intro p hpmem q hqmem hpp hqq hpq
      rcases List.mem_cons.mp hpmem with rfl | hpmem
      · rw [hrc] at hpp
        cases hpp
      rcases List.mem_cons.mp hqmem with rfl | hqmem
      · rw [hrc] at hqq
        cases hqq
      rcases List.mem_cons.mp hpmem with rfl | hpmem <;>
        rcases List.mem_cons.mp hqmem with rfl | hqmem
      · rfl
      · exact absurd hpq.symm (ih8 q hqmem hqq)
      · exact absurd hpq (ih8 p hpmem hpp)
      · exact ih9 p hpmem q hqmem hpp hqq hpq

/-- Effect of `augment_path` on a list of distinct marked cells: each
path cell is flipped (star → unmarked, prime → star); everything else is
untouched. -/
lemma augment_path_mask {N : ℕ} :
    ∀ (path : List (Fin N × Fin N)) (s : HState N),
      path.Nodup →
      (∀ p ∈ path, s.mask p.1 p.2 = 1 ∨ s.mask p.1 p.2 = 2) →
      (augment_path N path s).C = s.C ∧
      (augment_path N path s).rowCover = s.rowCover ∧
      (augment_path N path s).colCover = s.colCover ∧
      ∀ i j, (augment_path N path s).mask i j =
        if (i, j) ∈ path then (if s.mask i j = 1 then 0 else 1) else s.mask i j := by
  intro path
  induction path with
  | nil =>
    intro s _ _
    refine ⟨rfl, rfl, rfl, ?_⟩
    intro i j
    simp [augment_path]
  | cons p t ih =>
    intro s hnd hvals
    have hpt : p ∉ t := (List.nodup_cons.mp hnd).1
    have hndt : t.Nodup := (List.nodup_cons.mp hnd).2
    have hstep : augment_path N (p :: t) s = augment_path N t
        (if s.mask p.1 p.2 = 1 then
          { s with mask := fun i j => if i = p.1 ∧ j = p.2 then 0 else s.mask i j }
        else if s.mask p.1 p.2 = 2 then
          { s with mask := fun i j => if i = p.1 ∧ j = p.2 then 1 else s.mask i j }
        else s) := rfl
    set s' : HState N :=
      (if s.mask p.1 p.2 = 1 then
        { s with mask := fun i j => if i = p.1 ∧ j = p.2 then 0 else s.mask i j }
      else if s.mask p.1 p.2 = 2 then
        { s with mask := fun i j => if i = p.1 ∧ j = p.2 then 1 else s.mask i j }
      else s) with hs'
    have hsC : s'.C = s.C := by
      rw [hs']
      split_ifs <;> rfl
    have hsrc : s'.rowCover = s.rowCover := by
      rw [hs']
      split_ifs <;> rfl
    have hscc : s'.colCover = s.colCover := by
      rw [hs']
      split_ifs <;> rfl
    have hsm : ∀ i j, s'.mask i j =
        if i = p.1 ∧ j = p.2 then (if s.mask p.1 p.2 = 1 then 0 else 1)
        else s.mask i j := by
      intro i j
      rw [hs']
      rcases hvals p (List.mem_cons_self _ _) with h1 | h2
      · rw [if_pos h1]
        dsimp only
        rw [if_pos h1]
      · rw [if_neg (show ¬(s.mask p.1 p.2 = 1) by rw [h2]; norm_num), if_pos h2]
        dsimp only
        rw [if_neg (show ¬(s.mask p.1 p.2 = 1) by rw [h2]; norm_num)]
    have hsm_off : ∀ q : Fin N × Fin N, q ≠ p → s'.mask q.1 q.2 = s.mask q.1 q.2 := by
      intro q hq
      rw [hsm q.1 q.2, if_neg]
      intro hc
      exact hq (Prod.ext hc.1 hc.2)
    have hvals' : ∀ q ∈ t, s'.mask q.1 q.2 = 1 ∨ s'.mask q.1 q.2 = 2 := by
      intro q hq
      rw [hsm_off q (fun h => hpt (h ▸ hq))]
      exact hvals q (List.mem_cons_of_mem _ hq)
    obtain ⟨ihC, ihrc, ihcc, ihm⟩ := ih s' hndt hvals'
    rw [hstep]
    refine ⟨ihC.trans hsC, ihrc.trans hsrc, ihcc.trans hscc, ?_⟩
    intro i j
    rw [ihm i j]
    by_cases hmt : (i, j) ∈ t
    · rw [if_pos hmt, if_pos (List.mem_cons_of_mem _ hmt),
        hsm_off (i, j) (fun h => hpt (h ▸ hmt))]
    · rw [if_neg hmt, hsm i j]
      by_cases hp : i = p.1 ∧ j = p.2
      · rw [if_pos hp]
        have hip : (i, j) = p := Prod.ext hp.1 hp.2
        rw [if_pos (show (i, j) ∈ p :: t from hip ▸ List.mem_cons_self _ _)]
        rw [hp.1, hp.2]
      · rw [if_neg hp, if_neg]
        intro hmem
        rcases List.mem_cons.mp hmem with heq | hmem
        · exact hp ⟨congrArg Prod.fst heq, congrArg Prod.snd heq⟩
        · exact hmt hmem

/-- The augment branch: when the primed uncovered zero's row has no
star, the augmenting path exists, and flipping it, clearing primes and
restarting the phase yields the invariant again with one more star. -/
lemma augment_branch {N : ℕ} {cost : Fin N → Fin N → ℚ} {s1 : HState N}
    {z : Fin N × Fin N}
    (hinv : Inv N cost s1)
    (hzr : s1.rowCover z.1 = false) (hzc : s1.colCover z.2 = false)
    (hz0 : s1.C z.1 z.2 = 0)
    (hnostar : find_star_in_row N
      { s1 with mask := fun i j => if i = z.1 ∧ j = z.2 then 2 else s1.mask i j } z.1
      = Option.none) :
    ∃ path, buildPath N (N + 1)
        { s1 with mask := fun i j => if i = z.1 ∧ j = z.2 then 2 else s1.mask i j }
        z.2 [(z.1, z.2)] = some path ∧
      Inv N cost (cover_star_columns N
        { clear_primes N (augment_path N path
            { s1 with mask := fun i j => if i = z.1 ∧ j = z.2 then 2 else s1.mask i j })
          with rowCover := fun _ => false, colCover := fun _ => false }).1 ∧
      (cover_star_columns N
        { clear_primes N (augment_path N path
            { s1 with mask := fun i j => if i = z.1 ∧ j = z.2 then 2 else s1.mask i j })
          with rowCover := fun _ => false, colCover := fun _ => false }).2 =
        (starSet N (cover_star_columns N
          { clear_primes N (augment_path N path
              { s1 with mask := fun i j => if i = z.1 ∧ j = z.2 then 2 else s1.mask i j })
            with rowCover := fun _ => false, colCover := fun _ => false }).1).card ∧
      (starSet N (cover_star_columns N
        { clear_primes N (augment_path N path
            { s1 with mask := fun i j => if i = z.1 ∧ j = z.2 then 2 else s1.mask i j })
          with rowCover := fun _ => false, colCover := fun _ => false }).1).card =
        (starSet N s1).card + 1 := by
  set s2 : HState N :=
    { s1 with mask := fun i j => if i = z.1 ∧ j = z.2 then 2 else s1.mask i j } with hs2
  have hnoprime_row : ∀ j, s1.mask z.1 j ≠ 2 := by
    intro j hj
    have := (hinv.coverIffPrime z.1).mpr ⟨j, hj⟩
    rw [hzr] at this
    cases this
  have hz_nostar1 : s1.mask z.1 z.2 ≠ 1 := by
    intro h
    have := hinv.starUncovColCovRow z.1 z.2 h hzc
    rw [hzr] at this
    cases this
  have hm1 : ∀ i j, s2.mask i j = 1 ↔ s1.mask i j = 1 := by
    intro i j
    rw [hs2]
    dsimp only
    split_ifs with h
    · obtain ⟨h1, h2⟩ := h
      subst h1
      subst h2
      simp only [OfNat.ofNat_ne_one, false_iff]
      exact hz_nostar1
    · exact Iff.rfl
  have hm2 : ∀ i j, s2.mask i j = 2 ↔ (s1.mask i j = 2 ∨ (i = z.1 ∧ j = z.2)) := by
    intro i j
    rw [hs2]
    dsimp only
    split_ifs with h
    · exact iff_of_true rfl (Or.inr h)
    · constructor
      · exact fun hh => Or.inl hh
      · rintro (hh | hh)
        · exact hh
        · exact absurd hh h
  have hz2prime : s2.mask z.1 z.2 = 2 := (hm2 z.1 z.2).mpr (Or.inr ⟨rfl, rfl⟩)
  have hnostar_row : ∀ j, s2.mask z.1 j ≠ 1 := find_star_in_row_none hnostar
  have hrowU2 : ∀ i j j', s2.mask i j = 1 → s2.mask i j' = 1 → j = j' := by
    intro i j j' h h'
    exact hinv.starRowU i j j' ((hm1 i j).mp h) ((hm1 i j').mp h')
  have hcolU2 : ∀ i i' j, s2.mask i j = 1 → s2.mask i' j = 1 → i = i' := by
    intro i i' j h h'
    exact hinv.starColU i i' j ((hm1 i j).mp h) ((hm1 i' j).mp h')
  have hprimeRowU2 : ∀ i j j', s2.mask i j = 2 → s2.mask i j' = 2 → j = j' := by
    intro i j j' h h'
    rcases (hm2 i j).mp h with h2 | h2 <;> rcases (hm2 i j').mp h' with h2' | h2'
    · exact hinv.primeRowU i j j' h2 h2'
    · exact absurd h2 (h2'.1 ▸ hnoprime_row j)
    · exact absurd h2' (h2.1 ▸ hnoprime_row j')
    · exact h2.2.trans h2'.2.symm
  have hCeq : s2.C = s1.C := rfl
  have hcov2r : s2.rowCover = s1.rowCover := rfl
  have hcov2c : s2.colCover = s1.colCover := rfl
  have hzeros2 : ∀ i j, s2.mask i j ≠ 0 → s2.C i j = 0 := by
    intro i j h
    rcases hinv.maskRange i j with h0 | h1 | h2
    · rw [hs2] at h
      dsimp only at h
      split_ifs at h with hc
      · obtain ⟨hc1, hc2⟩ := hc
        subst hc1
        subst hc2
        exact hz0
      · exact absurd h0 h
    · exact hinv.zeros i j (by rw [h1]; norm_num)
    · exact hinv.zeros i j (by rw [h2]; norm_num)
  obtain ⟨rk, hrk⟩ := hinv.rank
  have hrk2 : ∀ i j i',
      s2.mask i j = 2 → s2.mask i' j = 1 →
      (fun i => if i = z.1 then (Finset.univ.sup rk) + 1 else rk i) i' <
      (fun i => if i = z.1 then (Finset.univ.sup rk) + 1 else rk i) i := by
    intro i j i' hp hs
    dsimp only
    have hs1' := (hm1 i' j).mp hs
    have hi' : i' ≠ z.1 := by
      intro hh
      rw [hh] at hs1'
      rcases (hm2 i j).mp hp with h2 | h2
      · have hcf := hinv.primeUncovCol i j h2
        have hcov := hinv.starUncovColCovRow z.1 j hs1' hcf
        rw [hzr] at hcov
        cases hcov
      · rw [h2.2] at hs1'
        exact hz_nostar1 hs1'
    rcases (hm2 i j).mp hp with h2 | h2
    · have hi : i ≠ z.1 := fun h => (h ▸ hnoprime_row j) h2
      rw [if_neg hi', if_neg hi]
      exact hrk i j i' h2 hs1'
    · rw [if_neg hi', if_pos h2.1]
      exact Nat.lt_succ_of_le (Finset.le_sup (Finset.mem_univ i'))
  have hps2 : ∀ i c, s2.colCover c = false → s2.mask i c = 1 → ∃ j, s2.mask i j = 2 := by
    intro i c hcu hstar
    have hcov := hinv.starUncovColCovRow i c ((hm1 i c).mp hstar) hcu
    obtain ⟨j, hj⟩ := (hinv.coverIffPrime i).mp hcov
    exact ⟨j, (hm2 i j).mpr (Or.inl hj)⟩
  have hpc2 : ∀ i j, s2.mask i j = 2 → s2.colCover j = false := by
    intro i j h
    rcases (hm2 i j).mp h with h2 | h2
    · exact hinv.primeUncovCol i j h2
    · rw [hcov2c, h2.2]
      exact hzc
  obtain ⟨L, hbuild, hch⟩ := buildPath_spec
    (fun i => if i = z.1 then (Finset.univ.sup rk) + 1 else rk i) hrk2 hps2 hpc2
    (N + 1) ∅ z.2 [(z.1, z.2)] hzc (fun r' _ v hv => absurd hv (Finset.not_mem_empty v))
    (by simp)
  obtain ⟨cf1, cf2, cf3, cf4, cf5, cf6, cf7, cf8, cf9⟩ := chain_facts
    (fun i => if i = z.1 then (Finset.univ.sup rk) + 1 else rk i) hrk2 hrowU2 hcolU2
    z.2 L hch
  -- rows of the chain are all distinct from `z.1`
  have hrowsL : ∀ p ∈ L, p.1 ≠ z.1 := by
    intro p hpL
    cases hch with
    | nil c2 h2 => cases hpL
    | cons c2 r2 c2' L2 hf2 hp2 hch2 =>
      have hstar2 : s2.mask r2 z.2 = 1 := find_star_in_col_mask hf2
      have h1 := cf7 p hpL r2 hstar2
      have h2 := hrk2 z.1 z.2 r2 hz2prime hstar2
      intro hc
      rw [hc] at h1
      exact lt_irrefl _ (lt_of_le_of_lt h1 h2)
  have hzL : (z.1, z.2) ∉ L := fun h => hrowsL (z.1, z.2) h rfl
  have hpathnd : ((z.1, z.2) :: L).Nodup := List.nodup_cons.mpr ⟨hzL, cf5⟩
  have hpathvals : ∀ p ∈ (z.1, z.2) :: L,
      s2.mask p.1 p.2 = 1 ∨ s2.mask p.1 p.2 = 2 := by
    intro p hp
    rcases List.mem_cons.mp hp with rfl | hp
    · exact Or.inr hz2prime
    · exact cf6 p hp
  obtain ⟨haC, harc, hacc, ham⟩ := augment_path_mask ((z.1, z.2) :: L) s2 hpathnd hpathvals
  refine ⟨(z.1, z.2) :: L, by simpa using hbuild, ?_⟩
  -- the state after augmenting, clearing primes and resetting covers
  set s3 := clear_primes N (augment_path N ((z.1, z.2) :: L) s2) with hs3
  have hm4 : ∀ i j, s3.mask i j =
      if (i, j) ∈ (z.1, z.2) :: L then (if s2.mask i j = 1 then 0 else 1)
      else (if s2.mask i j = 2 then 0 else s2.mask i j) := by
    intro i j
    rw [hs3]
    show (if (augment_path N ((z.1, z.2) :: L) s2).mask i j = 2 then 0
      else (augment_path N ((z.1, z.2) :: L) s2).mask i j) = _
    rw [ham i j]
    by_cases hmem : (i, j) ∈ (z.1, z.2) :: L
    · rw [if_pos hmem, if_pos hmem]
      by_cases h1 : s2.mask i j = 1
      · rw [if_pos h1]
        norm_num
      · rw [if_neg h1]
        norm_num
    · rw [if_neg hmem, if_neg hmem]
  have hstar3 : ∀ i j, s3.mask i j = 1 ↔
      (((i, j) ∈ (z.1, z.2) :: L ∧ s2.mask i j = 2) ∨
       ((i, j) ∉ (z.1, z.2) :: L ∧ s2.mask i j = 1)) := by
    intro i j
    rw [hm4 i j]
    by_cases hmem : (i, j) ∈ (z.1, z.2) :: L
    · rw [if_pos hmem]
      rcases hpathvals (i, j) hmem with h1 | h2
      · rw [if_pos h1]
        constructor
        · intro h
          cases h
        · rintro (⟨_, hh⟩ | ⟨hh, _⟩)
          · rw [h1] at hh
            cases hh
          · exact absurd hmem hh
      · rw [if_neg (by rw [h2]; norm_num)]
        exact iff_of_true rfl (Or.inl ⟨hmem, h2⟩)
    · rw [if_neg hmem]
      by_cases h2 : s2.mask i j = 2
      · rw [if_pos h2]
        constructor
        · intro h
          cases h
        · rintro (⟨hh, _⟩ | ⟨_, hh⟩)
          · exact absurd hh hmem
          · rw [h2] at hh
            cases hh
      · rw [if_neg h2]
        constructor
        · intro h
          exact Or.inr ⟨hmem, h⟩
        · rintro (⟨hh, _⟩ | ⟨_, hh⟩)
          · exact absurd hh hmem
          · exact hh
  -- the star sharing a row or a column with a path prime is on the path
  have hstarR : ∀ p ∈ (z.1, z.2) :: L, s2.mask p.1 p.2 = 2 →
      ∀ j', s2.mask p.1 j' = 1 → (p.1, j') ∈ (z.1, z.2) :: L := by
    intro p hp hpp j' hj'
    rcases List.mem_cons.mp hp with rfl | hp
    · exact absurd hj' (hnostar_row j')
    · exact List.mem_cons_of_mem _ (cf2 p hp hpp j' hj')
  have hstarC : ∀ p ∈ (z.1, z.2) :: L, s2.mask p.1 p.2 = 2 →
      ∀ i', s2.mask i' p.2 = 1 → (i', p.2) ∈ (z.1, z.2) :: L := by
    intro p hp hpp i' hi'
    rcases List.mem_cons.mp hp with rfl | hp
    · exact List.mem_cons_of_mem _ (cf1 i' hi')
    · exact List.mem_cons_of_mem _ (cf3 p hp hpp i' hi')
  have hmask4 : ∀ i j, s3.mask i j = 0 ∨ s3.mask i j = 1 := by
    intro i j
    rw [hm4 i j]
    by_cases hmem : (i, j) ∈ (z.1, z.2) :: L
    · rw [if_pos hmem]
      split_ifs
      · exact Or.inl rfl
      · exact Or.inr rfl
    · rw [if_neg hmem]
      split_ifs with h2
      · exact Or.inl rfl
      · rcases hinv.maskRange i j with h | h | h
        · left
          rw [hs2]
          dsimp only
          rw [if_neg (fun hc => h2 ((hm2 i j).mpr (Or.inr hc)))]
          exact h
        · exact Or.inr ((hm1 i j).mpr h)
        · exact absurd ((hm2 i j).mpr (Or.inl h)) h2
  have hrowU4 : ∀ i j j', s3.mask i j = 1 → s3.mask i j' = 1 → j = j' := by
    intro i j j' h h'
    rcases (hstar3 i j).mp h with ⟨hm, hp⟩ | ⟨hm, hs⟩ <;>
      rcases (hstar3 i j').mp h' with ⟨hm', hp'⟩ | ⟨hm', hs'⟩
    · exact hprimeRowU2 i j j' hp hp'
    · exact absurd (hstarR (i, j) hm hp j' hs') hm'
    · exact absurd (hstarR (i, j') hm' hp' j hs) hm
    · exact hrowU2 i j j' hs hs'
  have hprimesColU : ∀ p ∈ (z.1, z.2) :: L, ∀ q ∈ (z.1, z.2) :: L,
      s2.mask p.1 p.2 = 2 → s2.mask q.1 q.2 = 2 → p.2 = q.2 → p = q := by
    intro p hp q hq hpp hqq hc
    rcases List.mem_cons.mp hp with rfl | hp <;> rcases List.mem_cons.mp hq with rfl | hq
    · rfl
    · exact absurd hc.symm (cf8 q hq hqq)
    · exact absurd hc (cf8 p hp hpp)
    · exact cf9 p hp q hq hpp hqq hc
  have hcolU4 : ∀ i i' j, s3.mask i j = 1 → s3.mask i' j = 1 → i = i' := by
    intro i i' j h h'
    rcases (hstar3 i j).mp h with ⟨hm, hp⟩ | ⟨hm, hs⟩ <;>
      rcases (hstar3 i' j).mp h' with ⟨hm', hp'⟩ | ⟨hm', hs'⟩
    · exact congrArg Prod.fst (hprimesColU (i, j) hm (i', j) hm' hp hp' rfl)
    · exact absurd (hstarC (i, j) hm hp i' hs') hm'
    · exact absurd (hstarC (i', j) hm' hp' i hs) hm
    · exact hcolU2 i i' j hs hs'
  have hC3 : s3.C = s1.C := haC
  have hzeros4 : ∀ i j, s3.mask i j = 1 → s3.C i j = 0 := by
    intro i j h
    rw [hC3]
    rcases (hstar3 i j).mp h with ⟨_, hp⟩ | ⟨_, hs⟩
    · exact hzeros2 i j (by rw [hp]; norm_num)
    · exact hzeros2 i j (by rw [hs]; norm_num)
  have hnn4 : ∀ i j, 0 ≤ s3.C i j := by
    intro i j
    rw [hC3]
    exact hinv.nonneg i j
  have hpot4 : ∃ u v : Fin N → ℚ, ∀ i j, s3.C i j = cost i j - u i - v j := by
    rw [hC3]
    exact hinv.pot
  have hphase := phase_start_inv cost
    { s3 with rowCover := fun _ => false, colCover := fun _ => false }
    hmask4 hrowU4 hcolU4 hzeros4 (fun i => rfl) (fun j => rfl) hnn4 hpot4
  refine ⟨hphase.1, hphase.2, ?_⟩
  show (starSet N s3).card = (starSet N s1).card + 1
  -- count the stars: path primes replace path stars, one more of the former
  have hS2 : starSet N s2 = starSet N s1 := by
    ext p
    rw [mem_starSet, mem_starSet]
    exact hm1 p.1 p.2
  set P := ((z.1, z.2) :: L).toFinset with hP
  set A := P.filter (fun p => s2.mask p.1 p.2 = 1) with hA
  set B := P.filter (fun p => s2.mask p.1 p.2 = 2) with hB
  have hsplit : starSet N s3 = B ∪ (starSet N s2 \ A) := by
    ext p
    rw [mem_starSet, hstar3 p.1 p.2]
    simp only [hB, hA, hP, Finset.mem_union, Finset.mem_filter, Finset.mem_sdiff,
      mem_starSet, List.mem_toFinset, Prod.mk.eta]
    constructor
    · rintro (⟨hm, hp⟩ | ⟨hm, hs⟩)
      · exact Or.inl ⟨hm, hp⟩
      · exact Or.inr ⟨hs, fun hA' => hm hA'.1⟩
    · rintro (⟨hm, hp⟩ | ⟨hs, hA'⟩)
      · exact Or.inl ⟨hm, hp⟩
      · exact Or.inr ⟨fun hP' => hA' ⟨hP', hs⟩, hs⟩
  have hdisj : Disjoint B (starSet N s2 \ A) := by
    rw [Finset.disjoint_left]
    intro p hpB hpS
    have h2 := (Finset.mem_filter.mp hpB).2
    have h1 := mem_starSet.mp (Finset.mem_sdiff.mp hpS).1
    rw [h1] at h2
    cases h2
  have hAsub : A ⊆ starSet N s2 := by
    intro p hp
    exact mem_starSet.mpr (Finset.mem_filter.mp hp).2
  have hcardA : A.card =
      (((z.1, z.2) :: L).filter (fun p => decide (s2.mask p.1 p.2 = 1))).length := by
    rw [← List.toFinset_card_of_nodup (hpathnd.filter _)]
    congr 1
    ext q
    simp only [hA, hP, Finset.mem_filter, List.mem_toFinset, List.mem_filter,
      decide_eq_true_eq]
  have hcardB : B.card =
      (((z.1, z.2) :: L).filter (fun p => decide (s2.mask p.1 p.2 = 2))).length := by
    rw [← List.toFinset_card_of_nodup (hpathnd.filter _)]
    congr 1
    ext q
    simp only [hB, hP, Finset.mem_filter, List.mem_toFinset, List.mem_filter,
      decide_eq_true_eq]
  have hfA : ((z.1, z.2) :: L).filter (fun p => decide (s2.mask p.1 p.2 = 1)) =
      L.filter (fun p => decide (s2.mask p.1 p.2 = 1)) := by
    rw [List.filter_cons, if_neg]
    simp [hz2prime]
  have hfB : ((z.1, z.2) :: L).filter (fun p => decide (s2.mask p.1 p.2 = 2)) =
      (z.1, z.2) :: L.filter (fun p => decide (s2.mask p.1 p.2 = 2)) := by
    rw [List.filter_cons, if_pos]
    simp [hz2prime]
  have hBA : B.card = A.card + 1 := by
    rw [hcardA, hcardB, hfA, hfB, List.length_cons, cf4]
  have hle : A.card ≤ (starSet N s2).card := Finset.card_le_card hAsub
  rw [hsplit, Finset.card_union_of_disjoint hdisj, Finset.card_sdiff hAsub, hBA, ← hS2]
  omega

lemma starSet_congr {N : ℕ} {s t : HState N} (h : s.mask = t.mask) :
    starSet N s = starSet N t := by
  ext p
  rw [mem_starSet, mem_starSet, h]

lemma coveredRows_congr {N : ℕ} {s t : HState N} (h : s.rowCover = t.rowCover) :
    coveredRows N s = coveredRows N t := by
  ext i
  simp only [coveredRows, Finset.mem_filter, h]

lemma coveredRows_card_le_N {N : ℕ} (s : HState N) : (coveredRows N s).card ≤ N := by
  have := Finset.card_le_card (Finset.subset_univ (coveredRows N s))
  simpa using this

/-- The main loop, run with enough fuel under the invariant, returns a
state satisfying the invariant in which all `N` columns own a star. -/
lemma mainLoop_spec {N : ℕ} {cost : Fin N → Fin N → ℚ} :
    ∀ fuel (s : HState N) (count : ℕ),
      Inv N cost s → count = (starSet N s).card →
      (N - count) * (N + 1) + (N - (coveredRows N s).card) < fuel →
      Inv N cost (mainLoop N fuel s count) ∧
      (starSet N (mainLoop N fuel s count)).card = N := by
  intro fuel
  induction fuel with
  | zero =>
    intro s count _ _ h
    omega
  | succ f ih =>
    intro s count hinv hcount hfuel
    by_cases hdone : N ≤ count
    · have hle : count ≤ N := hcount ▸ starSet_card_le hinv.starRowU
      have heq : count = N := le_antisymm hle hdone
      have hstep : mainLoop N (f + 1) s count = s := by
        show (if N ≤ count then s else _) = s
        rw [if_pos hdone]
      rw [hstep]
      exact ⟨hinv, by rw [← hcount, heq]⟩
    · push_neg at hdone
      obtain ⟨s1, z, hfz, hinv1, hmask1, hrow1, hcol1, hzr, hzc, hz0⟩ :=
        findZeroLoop_spec hinv hcount hdone N
      have hss1 : starSet N s1 = starSet N s := starSet_congr hmask1
      have hcr1 : coveredRows N s1 = coveredRows N s := coveredRows_congr hrow1
      have hstep : mainLoop N (f + 1) s count =
          (match find_star_in_row N
            { s1 with mask := fun i j => if i = z.1 ∧ j = z.2 then 2 else s1.mask i j }
            z.1 with
          | some star_col =>
            mainLoop N f
              { s1 with
                mask := fun i j => if i = z.1 ∧ j = z.2 then 2 else s1.mask i j,
                rowCover := fun i => if i = z.1 then true else s1.rowCover i,
                colCover := fun j => if j = star_col then false else s1.colCover j }
              count
          | Option.none =>
            match buildPath N (N + 1)
              { s1 with mask := fun i j => if i = z.1 ∧ j = z.2 then 2 else s1.mask i j }
              z.2 [(z.1, z.2)] with
            | Option.none =>
              { s1 with mask := fun i j => if i = z.1 ∧ j = z.2 then 2 else s1.mask i j }
            | some path =>
              mainLoop N f
                (cover_star_columns N
                  { clear_primes N (augment_path N path
                      { s1 with
                        mask := fun i j => if i = z.1 ∧ j = z.2 then 2 else s1.mask i j })
                    with rowCover := fun _ => false, colCover := fun _ => false }).1
                (cover_star_columns N
                  { clear_primes N (augment_path N path
                      { s1 with
                        mask := fun i j => if i = z.1 ∧ j = z.2 then 2 else s1.mask i j })
                    with rowCover := fun _ => false, colCover := fun _ => false }).2) := by
        show (if N ≤ count then s else _) = _
        rw [if_neg (by omega)]
        simp only [hfz]
      rw [hstep]
      cases hsr : find_star_in_row N
          { s1 with mask := fun i j => if i = z.1 ∧ j = z.2 then 2 else s1.mask i j }
          z.1 with
      | some star_col =>
        obtain ⟨hinv3, hss3, hcr3⟩ := star_branch hinv1 hzr hzc hz0 hsr
        have hcount3 : count = (starSet N
            { s1 with
              mask := fun i j => if i = z.1 ∧ j = z.2 then 2 else s1.mask i j,
              rowCover := fun i => if i = z.1 then true else s1.rowCover i,
              colCover := fun j => if j = star_col then false else s1.colCover j }).card := by
          rw [hss3, hss1, hcount]
        apply ih _ count hinv3 hcount3
        have hc3N := coveredRows_card_le_N
          { s1 with
            mask := fun i j => if i = z.1 ∧ j = z.2 then 2 else s1.mask i j,
            rowCover := fun i => if i = z.1 then true else s1.rowCover i,
            colCover := fun j => if j = star_col then false else s1.colCover j }
        rw [hcr3, hcr1] at hc3N ⊢
        omega
      | none =>
        obtain ⟨path, hbuild, hinv5, hcount5, hcard5⟩ :=
          augment_branch hinv1 hzr hzc hz0 hsr
        simp only [hbuild]
        have hcard5' : (cover_star_columns N
            { clear_primes N (augment_path N path
                { s1 with mask := fun i j => if i = z.1 ∧ j = z.2 then 2 else s1.mask i j })
              with rowCover := fun _ => false, colCover := fun _ => false }).2 =
            count + 1 := by
          rw [hcount5, hcard5, hss1, hcount]
        rw [hcard5']
        apply ih _ (count + 1) hinv5 (by rw [← hcard5']; exact hcount5)
        have hsub : (N - count) * (N + 1) = (N - (count + 1)) * (N + 1) + (N + 1) := by
          have h1 : N - count = (N - (count + 1)) + 1 := by omega
          rw [h1, Nat.succ_mul]
        rw [hsub] at hfuel
        have hc5N := coveredRows_card_le_N (cover_star_columns N
          { clear_primes N (augment_path N path
              { s1 with mask := fun i j => if i = z.1 ∧ j = z.2 then 2 else s1.mask i j })
            with rowCover := fun _ => false, colCover := fun _ => false }).1
        omega

/-! ### The final state of `hungarian_min_cost` -/

/-- The state at which the main loop of `hungarian_min_cost` stops. -/
def hungarianFinalState (N : ℕ) (cost : Fin N → Fin N → ℚ) : HState N :=
  mainLoop N ((N + 1) * (N + 1))
    (cover_star_columns N
      { initStars N (reduceCols N (reduceRows N cost)) with
        rowCover := fun _ => false, colCover := fun _ => false }).1
    (cover_star_columns N
      { initStars N (reduceCols N (reduceRows N cost)) with
        rowCover := fun _ => false, colCover := fun _ => false }).2

lemma hungarian_min_cost_eq (N : ℕ) (cost : Fin N → Fin N → ℚ) :
    hungarian_min_cost N cost = extractAssignment N (hungarianFinalState N cost) := rfl

/-- Running the whole pipeline establishes the invariant and `N` stars. -/
lemma hungarianFinalState_inv (N : ℕ) (cost : Fin N → Fin N → ℚ) :
    Inv N cost (hungarianFinalState N cost) ∧
    (starSet N (hungarianFinalState N cost)).card = N := by
  obtain ⟨ip1, ip2, ip3, ip4, ipC⟩ := initStars_spec (reduceCols N (reduceRows N cost))
  set s0 := initStars N (reduceCols N (reduceRows N cost)) with hs0
  set s1 : HState N := { s0 with rowCover := fun _ => false, colCover := fun _ => false }
    with hs1
  have hC1 : s1.C = reduceCols N (reduceRows N cost) := ipC
  have hphase := phase_start_inv cost s1 ip1 ip3 ip4
    (fun i j h => (ip2 i j h).1)
    (fun i => rfl) (fun j => rfl)
    (fun i j => by rw [hC1]; exact reduced_nonneg cost i j)
    (by rw [hC1]; exact reduced_pot cost)
  have hcov0 : (coveredRows N (cover_star_columns N s1).1).card = 0 := by
    rw [Finset.card_eq_zero]
    ext i
    simp [coveredRows, cover_star_columns]
  have hcnt_le : (cover_star_columns N s1).2 ≤ N := by
    rw [hphase.2]
    exact starSet_card_le hphase.1.starRowU
  have hmeasure : (N - (cover_star_columns N s1).2) * (N + 1) +
      (N - (coveredRows N (cover_star_columns N s1).1).card) < (N + 1) * (N + 1) := by
    have h1 : (N - (cover_star_columns N s1).2) * (N + 1) ≤ N * (N + 1) :=
      Nat.mul_le_mul_right _ (Nat.sub_le N _)
    have h2 : (N + 1) * (N + 1) = N * (N + 1) + (N + 1) := by ring
    omega
  exact mainLoop_spec ((N + 1) * (N + 1)) (cover_star_columns N s1).1
    (cover_star_columns N s1).2 hphase.1 hphase.2 hmeasure

/-- The unique star column of each row of the final state. -/
def starOf (N : ℕ) (s : HState N) (i : Fin N) : Fin N :=
  (find_star_in_row N s i).getD i

lemma star_fun {N : ℕ} {s : HState N}
    (hrowU : ∀ i j j', s.mask i j = 1 → s.mask i j' = 1 → j = j')
    (hcolU : ∀ i i' j, s.mask i j = 1 → s.mask i' j = 1 → i = i')
    (hcard : (starSet N s).card = N) :
    (∀ i, s.mask i (starOf N s i) = 1) ∧
    (∀ i j, s.mask i j = 1 → j = starOf N s i) ∧
    Function.Injective (starOf N s) := by
  have hall : ∀ i, ∃ j, s.mask i j = 1 := by
    intro i
    have himg : (starSet N s).image Prod.fst = Finset.univ := by
      apply Finset.eq_of_subset_of_card_le (Finset.subset_univ _)
      have hinj : Set.InjOn Prod.fst (starSet N s : Set (Fin N × Fin N)) := by
        intro p hp q hq hpq
        have hp' := mem_starSet.mp (Finset.mem_coe.mp hp)
        have hq' := mem_starSet.mp (Finset.mem_coe.mp hq)
        exact Prod.ext hpq (hrowU q.1 p.2 q.2 (hpq ▸ hp') hq')
      rw [Finset.card_image_of_injOn hinj, hcard]
      simp
    have : i ∈ (starSet N s).image Prod.fst := by
      rw [himg]
      exact Finset.mem_univ i
    obtain ⟨p, hp, hpi⟩ := Finset.mem_image.mp this
    exact ⟨p.2, by rw [← hpi]; exact mem_starSet.mp hp⟩
  have hsome : ∀ i, s.mask i (starOf N s i) = 1 := by
    intro i
    obtain ⟨j, hj, hm⟩ := find_star_in_row_isSome (hall i)
    rw [starOf, hj]
    exact hm
  refine ⟨hsome, fun i j h => hrowU i j (starOf N s i) h (hsome i), ?_⟩
  intro i i' h
  exact hcolU i i' (starOf N s i) (hsome i) (h ▸ hsome i')

lemma filterMap_eq_map_of {α β : Type*} (f : α → Option β) (g : α → β) :
    ∀ l : List α, (∀ a ∈ l, f a = some (g a)) → l.filterMap f = l.map g := by
  intro l
  induction l with
  | nil => intro _; rfl
  | cons a t ih =>
    intro h
    rw [List.filterMap_cons, h a (List.mem_cons_self _ _), List.map_cons,
      ih (fun b hb => h b (List.mem_cons_of_mem _ hb))]

lemma extract_eq_map {N : ℕ} {s : HState N}
    (hsome : ∀ i, s.mask i (starOf N s i) = 1)
    (huniq : ∀ i j, s.mask i j = 1 → j = starOf N s i) :
    extractAssignment N s =
      (List.finRange N).map (fun i => (i.1, (starOf N s i).1)) := by
  apply filterMap_eq_map_of
  intro i _
  have hfind : find_star_in_row N s i = some (starOf N s i) :=
    find_star_in_row_of_star (hsome i) (fun j' hj' => huniq i j' hj')
  rw [hfind]
  rfl

/-- The returned assignment of `hungarian_min_cost`, as a function
description: row `i` is paired with column `starOf i` of the final
state. -/
lemma hungarian_min_cost_map (N : ℕ) (cost : Fin N → Fin N → ℚ) :
    hungarian_min_cost N cost =
      (List.finRange N).map
        (fun i => (i.1, (starOf N (hungarianFinalState N cost) i).1)) ∧
    Function.Injective (starOf N (hungarianFinalState N cost)) ∧
    (∀ i, (hungarianFinalState N cost).mask i
      (starOf N (hungarianFinalState N cost) i) = 1) ∧
    (∀ i j, (hungarianFinalState N cost).mask i j = 1 →
      j = starOf N (hungarianFinalState N cost) i) := by
  obtain ⟨hinv, hcard⟩ := hungarianFinalState_inv N cost
  obtain ⟨hsome, huniq, hinj⟩ := star_fun hinv.starRowU hinv.starColU hcard
  exact ⟨(hungarian_min_cost_eq N cost).trans (extract_eq_map hsome huniq),
    hinj, hsome, huniq⟩

/-! ### Claims C2 and C7: the assignment is a perfect matching and the
main loop terminates with all columns starred -/

/-- C2: for every `N×N` matrix of nonnegative costs, the assignment
returned by `hungarian_min_cost` is a perfect matching: every row index
and every column index in `0..N-1` appears exactly once among the
returned pairs. -/
theorem claim_C2 (N : ℕ) (cost : Fin N → Fin N → ℚ) (hnn : ∀ i j, 0 ≤ cost i j) :
    ∀ k, k < N →
      ((hungarian_min_cost N cost).map Prod.fst).count k = 1 ∧
      ((hungarian_min_cost N cost).map Prod.snd).count k = 1 := by
  obtain ⟨hmap, hinj, hsome, huniq⟩ := hungarian_min_cost_map N cost
  intro k hk
  rw [hmap]
  constructor
  · rw [List.map_map]
    have h1 : (Prod.fst ∘ fun i : Fin N =>
        (i.1, (starOf N (hungarianFinalState N cost) i).1)) = Fin.val := rfl
    rw [h1, show k = (⟨k, hk⟩ : Fin N).1 from rfl,
      List.count_map_of_injective _ _ Fin.val_injective]
    exact List.count_eq_one_of_mem (List.nodup_finRange N) (List.mem_finRange _)
  · rw [List.map_map]
    have h1 : (Prod.snd ∘ fun i : Fin N =>
        (i.1, (starOf N (hungarianFinalState N cost) i).1)) =
        Fin.val ∘ (starOf N (hungarianFinalState N cost)) := rfl
    rw [h1, ← List.map_map, show k = (⟨k, hk⟩ : Fin N).1 from rfl,
      List.count_map_of_injective _ _ Fin.val_injective]
    have hnd : ((List.finRange N).map (starOf N (hungarianFinalState N cost))).Nodup :=
      (List.nodup_finRange N).map hinj
    have hsurj := Finite.injective_iff_surjective.mp hinj
    obtain ⟨i, hi⟩ := hsurj ⟨k, hk⟩
    exact List.count_eq_one_of_mem hnd
      (List.mem_map.mpr ⟨i, List.mem_finRange _, hi⟩)

/-- Witness for C2: on a concrete nonnegative 2×2 matrix, both indices
appear exactly once in each coordinate. -/
theorem claim_C2_witness :
    ((hungarian_min_cost 2 (fun i j => if i = j then 1 else 0)).map Prod.fst).count 0 = 1 ∧
    ((hungarian_min_cost 2 (fun i j => if i = j then 1 else 0)).map Prod.snd).count 1 = 1 :=
  ⟨(claim_C2 2 (fun i j => if i = j then 1 else 0)
      (fun i j => by dsimp only; split_ifs <;> norm_num) 0 (by norm_num)).1,
   (claim_C2 2 (fun i j => if i = j then 1 else 0)
      (fun i j => by dsimp only; split_ifs <;> norm_num) 1 (by norm_num)).2⟩

/-- C7: the main loop of `hungarian_min_cost` terminates in a state
where every one of the `N` columns holds a starred zero, and the starred
cells are exactly the pairs of the returned assignment. -/
theorem claim_C7 (N : ℕ) (cost : Fin N → Fin N → ℚ) (hnn : ∀ i j, 0 ≤ cost i j) :
    (∀ j : Fin N, ∃ i : Fin N, (hungarianFinalState N cost).mask i j = 1 ∧
      (hungarianFinalState N cost).C i j = 0) ∧
    hungarian_min_cost N cost = extractAssignment N (hungarianFinalState N cost) ∧
    (∀ i j : Fin N, (hungarianFinalState N cost).mask i j = 1 ↔
      (i.1, j.1) ∈ hungarian_min_cost N cost) := by
  obtain ⟨hinv, hcard⟩ := hungarianFinalState_inv N cost
  obtain ⟨hmap, hinj, hsome, huniq⟩ := hungarian_min_cost_map N cost
  refine ⟨?_, hungarian_min_cost_eq N cost, ?_⟩
  · intro j
    have hsurj := Finite.injective_iff_surjective.mp hinj
    obtain ⟨i, hi⟩ := hsurj j
    refine ⟨i, ?_, ?_⟩
    · rw [← hi]
      exact hsome i
    · apply hinv.zeros
      rw [← hi, hsome i]
      norm_num
  · intro i j
    constructor
    · intro h
      rw [hmap]
      exact List.mem_map.mpr ⟨i, List.mem_finRange _, by rw [← huniq i j h]⟩
    · intro h
      rw [hmap] at h
      obtain ⟨i', _, hi'⟩ := List.mem_map.mp h
      have h1 : i' = i := Fin.val_injective (congrArg Prod.fst hi')
      have h2 : starOf N (hungarianFinalState N cost) i' = j :=
        Fin.val_injective (congrArg Prod.snd hi')
      rw [← h1, ← h2]
      exact hsome i'

/-! ### Claim C1: the Hungarian similarity dominates the greedy one -/

lemma mem_enumFrom_getD :
    ∀ (l : List ℚ) (k : ℕ) (p : ℕ × ℚ), p ∈ l.enumFrom k →
      k ≤ p.1 ∧ p.1 - k < l.length ∧ l.getD (p.1 - k) 0 = p.2 := by
  intro l
  induction l with
  | nil => intro k p hp; cases hp
  | cons x t ih =>
    intro k p hp
    rw [List.enumFrom_cons] at hp
    rcases List.mem_cons.mp hp with rfl | hp'
    · exact ⟨le_refl _, by simp, by simp⟩
    · obtain ⟨ha, hb, hc⟩ := ih (k + 1) p hp'
      refine ⟨by omega, ?_, ?_⟩
      · simp only [List.length_cons]
        omega
      · rw [show p.1 - k = (p.1 - (k + 1)) + 1 from by omega, List.getD_cons_succ]
        exact hc

/-- Invariant of the inner fold of `greedyPick`: the accumulator is
either still `none` or a legitimate pick (an unused in-range column with
its value). -/
lemma greedyPick_fold (used : Finset ℕ) (row : List ℚ) :
    ∀ l : List (ℕ × ℚ),
      (∀ p ∈ l, p.1 < row.length ∧ row.getD p.1 0 = p.2) →
      ∀ acc : Option (ℚ × ℕ),
        (acc = Option.none ∨ ∃ v j, acc = some (v, j) ∧ j ∉ used ∧
            j < row.length ∧ row.getD j 0 = v) →
        (l.foldl
            (fun acc jv =>
              let best : ℚ := match acc with | some p => p.1 | Option.none => -1
              if jv.1 ∉ used ∧ best < jv.2 then some (jv.2, jv.1) else acc)
            acc = Option.none ∨
          ∃ v j,
            l.foldl
              (fun acc jv =>
                let best : ℚ := match acc with | some p => p.1 | Option.none => -1
                if jv.1 ∉ used ∧ best < jv.2 then some (jv.2, jv.1) else acc)
              acc = some (v, j) ∧ j ∉ used ∧ j < row.length ∧ row.getD j 0 = v) := by
  intro l
  induction l with
  | nil => exact fun _ acc hacc => hacc
  | cons q t ih =>
    intro hmem acc hacc
    rw [List.foldl_cons]
    refine ih (fun p hp => hmem p (List.mem_cons_of_mem _ hp)) _ ?_
    rcases hacc with rfl | ⟨v, j, rfl, hju, hjlt, hjval⟩
    · dsimp only
      by_cases hq : q.1 ∉ used ∧ (-1 : ℚ) < q.2
      · rw [if_pos hq]
        exact Or.inr ⟨q.2, q.1, rfl, hq.1, (hmem q (List.mem_cons_self _ _)).1,
          (hmem q (List.mem_cons_self _ _)).2⟩
      · rw [if_neg hq]
        exact Or.inl rfl
    · dsimp only
      by_cases hq : q.1 ∉ used ∧ v < q.2
      · rw [if_pos hq]
        exact Or.inr ⟨q.2, q.1, rfl, hq.1, (hmem q (List.mem_cons_self _ _)).1,
          (hmem q (List.mem_cons_self _ _)).2⟩
      · rw [if_neg hq]
        exact Or.inr ⟨v, j, rfl, hju, hjlt, hjval⟩

/-- `greedyPick` either fails or returns an unused in-range column with
its value. -/
lemma greedyPick_spec (row : List ℚ) (used : Finset ℕ) :
    greedyPick row used = Option.none ∨
    ∃ v j, greedyPick row used = some (v, j) ∧ j ∉ used ∧ j < row.length ∧
      row.getD j 0 = v := by
  have hfacts : ∀ p ∈ row.enum, p.1 < row.length ∧ row.getD p.1 0 = p.2 := by
    intro p hp
    have h := mem_enumFrom_getD row 0 p hp
    simpa using h
  exact greedyPick_fold used row row.enum hfacts Option.none (Or.inl rfl)

/-- Decomposition of the greedy total: it is the sum of the matrix
entries over a partial matching (distinct rows, distinct unused
columns). -/
lemma greedyTotal_spec :
    ∀ (M : List (List ℚ)) (used : Finset ℕ),
      ∃ pairs : List (ℕ × ℕ),
        (∀ p ∈ pairs, p.1 < M.length ∧ p.2 ∉ used ∧ p.2 < (M.getD p.1 []).length) ∧
        (pairs.map Prod.fst).Nodup ∧
        (pairs.map Prod.snd).Nodup ∧
        greedyTotal M used = (pairs.map (fun p => (M.getD p.1 []).getD p.2 0)).sum := by
  intro M
  induction M with
  | nil =>
    intro used
    exact ⟨[], fun p hp => absurd hp (List.not_mem_nil p),
      List.nodup_nil, List.nodup_nil, rfl⟩
  | cons row rest ih =>
    intro used
    rcases greedyPick_spec row used with hnone | ⟨v, j, hpick, hju, hjlt, hjval⟩
    · obtain ⟨pairs, hmem, hnd1, hnd2, htot⟩ := ih used
      refine ⟨pairs.map (fun p => (p.1 + 1, p.2)), ?_, ?_, ?_, ?_⟩
      · intro p hp
        obtain ⟨q, hq, rfl⟩ := List.mem_map.mp hp
        obtain ⟨hq1, hq2, hq3⟩ := hmem q hq
        refine ⟨?_, hq2, by simpa using hq3⟩
        dsimp only
        simp only [List.length_cons]
        omega
      · rw [List.map_map]
        have hc : (Prod.fst ∘ fun p : ℕ × ℕ => (p.1 + 1, p.2)) =
            (fun x => x + 1) ∘ Prod.fst := rfl
        rw [hc, ← List.map_map]
        exact hnd1.map (fun a b h => by simpa using h)
      · rw [List.map_map]
        have hc : (Prod.snd ∘ fun p : ℕ × ℕ => (p.1 + 1, p.2)) = Prod.snd := rfl
        rw [hc]
        exact hnd2
      · simp only [greedyTotal, hnone]
        rw [htot, List.map_map]
        rfl
    · obtain ⟨pairs, hmem, hnd1, hnd2, htot⟩ := ih (insert j used)
      refine ⟨(0, j) :: pairs.map (fun p => (p.1 + 1, p.2)), ?_, ?_, ?_, ?_⟩
      · intro p hp
        rcases List.mem_cons.mp hp with rfl | hp'
        · exact ⟨Nat.succ_pos _, hju, by simpa using hjlt⟩
        · obtain ⟨q, hq, rfl⟩ := List.mem_map.mp hp'
          obtain ⟨hq1, hq2, hq3⟩ := hmem q hq
          refine ⟨?_, fun hin => hq2 (Finset.mem_insert_of_mem hin), by simpa using hq3⟩
          dsimp only
          simp only [List.length_cons]
          omega
      · rw [List.map_cons]
        refine List.nodup_cons.mpr ⟨?_, ?_⟩
        · intro h0
          rw [List.map_map] at h0
          obtain ⟨a, ha, hfa⟩ := List.mem_map.mp h0
          simp at hfa
        · rw [List.map_map]
          have hc : (Prod.fst ∘ fun p : ℕ × ℕ => (p.1 + 1, p.2)) =
              (fun x => x + 1) ∘ Prod.fst := rfl
          rw [hc, ← List.map_map]
          exact hnd1.map (fun a b h => by simpa using h)
      · rw [List.map_cons]
        refine List.nodup_cons.mpr ⟨?_, ?_⟩
        · intro h0
          rw [List.map_map] at h0
          have hc : (Prod.snd ∘ fun p : ℕ × ℕ => (p.1 + 1, p.2)) = Prod.snd := rfl
          rw [hc] at h0
          obtain ⟨q, hq, hqj⟩ := List.mem_map.mp h0
          exact (hmem q hq).2.1 (by rw [hqj]; exact Finset.mem_insert_self j used)
        · rw [List.map_map]
          have hc : (Prod.snd ∘ fun p : ℕ × ℕ => (p.1 + 1, p.2)) = Prod.snd := rfl
          rw [hc]
          exact hnd2
      · simp only [greedyTotal, hpick]
        rw [htot, List.map_cons, List.sum_cons, List.map_map]
        have hc : ((fun p : ℕ × ℕ => ((row :: rest).getD p.1 []).getD p.2 0) ∘
            fun p : ℕ × ℕ => (p.1 + 1, p.2)) =
            (fun p : ℕ × ℕ => (rest.getD p.1 []).getD p.2 0) := rfl
        rw [hc]
        congr 1
        dsimp only
        simpa using hjval.symm

/-- A partial matching (distinct rows, distinct columns, all indices in
range) extends to a full injective assignment on `Fin N`. -/
lemma exists_injective_extension (N : ℕ) :
    ∀ pl : List (ℕ × ℕ),
      (∀ p ∈ pl, p.1 < N ∧ p.2 < N) →
      (pl.map Prod.fst).Nodup →
      (pl.map Prod.snd).Nodup →
      ∃ f : Fin N → Fin N, Function.Injective f ∧
        ∀ p ∈ pl, ∀ i : Fin N, i.1 = p.1 → (f i).1 = p.2 := by
  intro pl
  induction pl with
  | nil =>
    exact fun _ _ _ =>
      ⟨id, fun a b h => h, fun p hp => absurd hp (List.not_mem_nil p)⟩
  | cons q t ih =>
    intro hb hf hs
    rw [List.map_cons] at hf hs
    obtain ⟨hq1, hft⟩ := List.nodup_cons.mp hf
    obtain ⟨hq2, hst⟩ := List.nodup_cons.mp hs
    obtain ⟨ha, hbN⟩ := hb q (List.mem_cons_self _ _)
    obtain ⟨f, hfinj, hfval⟩ := ih (fun p hp => hb p (List.mem_cons_of_mem _ hp)) hft hst
    refine ⟨fun x => Equiv.swap (f ⟨q.1, ha⟩) ⟨q.2, hbN⟩ (f x), ?_, ?_⟩
    · intro a b hab
      exact hfinj ((Equiv.swap _ _).injective hab)
    · intro p hp i hi
      dsimp only
      rcases List.mem_cons.mp hp with rfl | hp'
      · have hieq : i = ⟨p.1, ha⟩ := Fin.ext hi
        rw [hieq, Equiv.swap_apply_left]
      · have hval := hfval p hp' i hi
        have hne1 : f i ≠ f ⟨q.1, ha⟩ := by
          intro hcon
          have hiq : i = ⟨q.1, ha⟩ := hfinj hcon
          apply hq1
          have hpq : q.1 = p.1 := by rw [← hi, hiq]
          rw [hpq]
          exact List.mem_map.mpr ⟨p, hp', rfl⟩
        have hne2 : f i ≠ ⟨q.2, hbN⟩ := by
          intro hcon
          apply hq2
          have hx : p.2 = q.2 := by rw [← hval, hcon]
          rw [← hx]
          exact List.mem_map.mpr ⟨p, hp', rfl⟩
        rw [Equiv.swap_apply_of_ne_of_ne hne1 hne2]
        exact hval

/-- Summing the values of a list of pairs with distinct rows is bounded
by a sum over any row set dominating each pair. -/
lemma list_sum_le_finsetSum {N : ℕ} (termF : Fin N → ℚ) (hnn : ∀ i, 0 ≤ termF i)
    (v : ℕ × ℕ → ℚ) :
    ∀ pairs : List (ℕ × ℕ), ∀ R : Finset (Fin N),
      (pairs.map Prod.fst).Nodup →
      (∀ p ∈ pairs, ∃ i : Fin N, i ∈ R ∧ i.1 = p.1 ∧ v p ≤ termF i) →
      (pairs.map v).sum ≤ ∑ i ∈ R, termF i := by
  intro pairs
  induction pairs with
  | nil => exact fun R _ _ => Finset.sum_nonneg (fun i _ => hnn i)
  | cons p t ih =>
    intro R hnd hex
    obtain ⟨ip, hipR, hip1, hipv⟩ := hex p (List.mem_cons_self _ _)
    rw [List.map_cons, List.sum_cons, ← Finset.add_sum_erase R termF hipR]
    apply add_le_add hipv
    rw [List.map_cons] at hnd
    obtain ⟨hp1, hndt⟩ := List.nodup_cons.mp hnd
    apply ih (R.erase ip) hndt
    intro q hq
    obtain ⟨iq, hiqR, hiq1, hiqv⟩ := hex q (List.mem_cons_of_mem _ hq)
    refine ⟨iq, Finset.mem_erase.mpr ⟨?_, hiqR⟩, hiq1, hiqv⟩
    intro hcon
    apply hp1
    have hx : q.1 = p.1 := by rw [← hiq1, hcon, hip1]
    rw [← hx]
    exact List.mem_map.mpr ⟨q, hq, rfl⟩

/-- Duality: the assignment of the final state has minimum total cost
among all injective assignments (the reduced matrix is nonnegative, zero
on the stars, and differs from the cost by row/column potentials). -/
lemma hungarian_optimal (N : ℕ) (cost : Fin N → Fin N → ℚ)
    (f : Fin N → Fin N) (hf : Function.Injective f) :
    ∑ i : Fin N, cost i (starOf N (hungarianFinalState N cost) i) ≤
      ∑ i : Fin N, cost i (f i) := by
  obtain ⟨hinv, hcard⟩ := hungarianFinalState_inv N cost
  obtain ⟨hsome, huniq, hinj⟩ := star_fun hinv.starRowU hinv.starColU hcard
  obtain ⟨u, v, huv⟩ := hinv.pot
  have hzero : ∀ i, (hungarianFinalState N cost).C i
      (starOf N (hungarianFinalState N cost) i) = 0 := by
    intro i
    apply hinv.zeros
    rw [hsome i]
    norm_num
  have hcost : ∀ g : Fin N → Fin N, ∑ i : Fin N, cost i (g i) =
      ∑ i : Fin N, (hungarianFinalState N cost).C i (g i) +
        (∑ i : Fin N, u i + ∑ i : Fin N, v (g i)) := by
    intro g
    rw [← Finset.sum_add_distrib, ← Finset.sum_add_distrib]
    apply Finset.sum_congr rfl
    intro i _
    have h := huv i (g i)
    linarith
  have hvs : ∑ i : Fin N, v (starOf N (hungarianFinalState N cost) i) =
      ∑ j : Fin N, v j :=
    Fintype.sum_bijective (starOf N (hungarianFinalState N cost))
      (Finite.injective_iff_bijective.mp hinj)
      (fun i => v (starOf N (hungarianFinalState N cost) i)) v (fun i => rfl)
  have hvf : ∑ i : Fin N, v (f i) = ∑ j : Fin N, v j :=
    Fintype.sum_bijective f (Finite.injective_iff_bijective.mp hf)
      (fun i => v (f i)) v (fun i => rfl)
  have h0 : ∑ i : Fin N, (hungarianFinalState N cost).C i
      (starOf N (hungarianFinalState N cost) i) = 0 := by
    rw [Finset.sum_congr rfl (fun i _ => hzero i)]
    exact Finset.sum_const_zero
  have hge : 0 ≤ ∑ i : Fin N, (hungarianFinalState N cost).C i (f i) :=
    Finset.sum_nonneg (fun i _ => hinv.nonneg i (f i))
  rw [hcost (starOf N (hungarianFinalState N cost)), hcost f, hvs, hvf, h0]
  linarith

/-- The guarded accumulation of `similarity_authors_hungarian` as a sum. -/
lemma hung_foldl_sum (n m : ℕ) (sim : ℕ → ℕ → ℚ) :
    ∀ (l : List (ℕ × ℕ)) (a : ℚ),
      l.foldl (fun acc p => if p.1 < n ∧ p.2 < m then acc + sim p.1 p.2 else acc) a =
        a + (l.map (fun p => if p.1 < n ∧ p.2 < m then sim p.1 p.2 else 0)).sum := by
  intro l
  induction l with
  | nil => intro a; simp
  | cons p t ih =>
    intro a
    rw [List.foldl_cons, List.map_cons, List.sum_cons, ih]
    by_cases h : p.1 < n ∧ p.2 < m
    · rw [if_pos h, if_pos h]
      ring
    · rw [if_neg h, if_neg h]
      ring

lemma getD_map_getD (l2 : List SVal) :
    ∀ (l1 : List SVal) (k : ℕ), k < l1.length →
      (l1.map (fun a => l2.map (fun b => author_similarity a b))).getD k [] =
        l2.map (fun b => author_similarity (l1.getD k SVal.none) b) := by
  intro l1
  induction l1 with
  | nil => intro k hk; exact absurd hk (Nat.not_lt_zero k)
  | cons a t ih =>
    intro k hk
    cases k with
    | zero => rfl
    | succ k2 =>
      rw [List.map_cons, List.getD_cons_succ, List.getD_cons_succ]
      exact ih k2 (by simpa using hk)

lemma getD_map_author (x : SVal) :
    ∀ (l2 : List SVal) (j : ℕ), j < l2.length →
      (l2.map (fun b => author_similarity x b)).getD j 0 =
        author_similarity x (l2.getD j SVal.none) := by
  intro l2
  induction l2 with
  | nil => intro j hj; exact absurd hj (Nat.not_lt_zero j)
  | cons b t ih =>
    intro j hj
    cases j with
    | zero => rfl
    | succ j2 =>
      rw [List.map_cons, List.getD_cons_succ, List.getD_cons_succ]
      exact ih j2 (by simpa using hj)

/-- The Hungarian list similarity succeeds on two non-empty lists and
dominates the greedy list similarity. -/
lemma hungarian_ge_greedy (l1 l2 : List SVal) (h1 : l1 ≠ []) (h2 : l2 ≠ []) :
    ∃ r : ℚ, similarity_authors_hungarian (.list l1) (.list l2) = .ok r ∧
      similarity_authors (.list l1) (.list l2) ≤ r := by
  have hn : 0 < l1.length := List.length_pos.mpr h1
  have hm : 0 < l2.length := List.length_pos.mpr h2
  set n := l1.length with hn_def
  set m := l2.length with hm_def
  set N := max n m with hN_def
  have hnN : n ≤ N := by rw [hN_def]; exact le_max_left n m
  have hmN : m ≤ N := by rw [hN_def]; exact le_max_right n m
  have hNpos : 0 < N := lt_of_lt_of_le hn hnN
  set sim : ℕ → ℕ → ℚ := fun i j =>
    author_similarity (l1.getD i SVal.none) (l2.getD j SVal.none) with hsim_def
  set cost : Fin N → Fin N → ℚ := fun i j =>
    if i.1 < n ∧ j.1 < m then 1 - sim i.1 j.1 else 1 with hcost_def
  have hhung : similarity_authors_hungarian (.list l1) (.list l2) =
      .ok ((hungarian_min_cost N cost).foldl
        (fun acc p => if p.1 < n ∧ p.2 < m then acc + sim p.1 p.2 else acc) 0 / (N : ℚ)) := by
    have hc1 : ¬(n = 0 ∧ m = 0) := by omega
    have hc2 : ¬(n = 0 ∨ m = 0) := by omega
    show (if n = 0 ∧ m = 0 then (Except.ok 1 : Except Unit ℚ)
        else if n = 0 ∨ m = 0 then Except.ok 0
        else Except.ok ((hungarian_min_cost N cost).foldl
          (fun acc p => if p.1 < n ∧ p.2 < m then acc + sim p.1 p.2 else acc) 0 /
            (N : ℚ))) = _
    rw [if_neg hc1, if_neg hc2]
  have hgreedy : similarity_authors (.list l1) (.list l2) =
      greedyTotal (l1.map (fun a => l2.map (fun b => author_similarity a b))) ∅ /
        (N : ℚ) := by
    have hstep : similarity_authors (.list l1) (.list l2) =
        greedyTotal (l1.map (fun a => l2.map (fun b => author_similarity a b))) ∅ /
          (max (l1.length : ℚ) (l2.length : ℚ)) := by
      show (if l1 = [] ∧ l2 = [] then (1 : ℚ)
          else if l1 = [] ∨ l2 = [] then 0
          else greedyTotal (l1.map (fun a => l2.map (fun b => author_similarity a b))) ∅ /
            (max (l1.length : ℚ) (l2.length : ℚ))) = _
      rw [if_neg (fun hc => h1 hc.1), if_neg (fun hc => hc.elim h1 h2)]
    rw [hstep, hN_def, hn_def, hm_def, Nat.cast_max]
  have hMlen : (l1.map (fun a => l2.map (fun b => author_similarity a b))).length = n := by
    rw [List.length_map, ← hn_def]
  have hrowlen : ∀ k, k < n →
      ((l1.map (fun a => l2.map (fun b => author_similarity a b))).getD k []).length = m := by
    intro k hk
    rw [getD_map_getD l2 l1 k (by rw [← hn_def]; exact hk), List.length_map, ← hm_def]
  have hval : ∀ k j, k < n → j < m →
      ((l1.map (fun a => l2.map (fun b => author_similarity a b))).getD k []).getD j 0 =
        sim k j := by
    intro k j hk hj
    rw [getD_map_getD l2 l1 k (by rw [← hn_def]; exact hk),
      getD_map_author (l1.getD k SVal.none) l2 j (by rw [← hm_def]; exact hj), hsim_def]
  obtain ⟨pairs, hmem, hnd1, hnd2, htot⟩ :=
    greedyTotal_spec (l1.map (fun a => l2.map (fun b => author_similarity a b))) ∅
  have hbounds : ∀ p ∈ pairs, p.1 < N ∧ p.2 < N := by
    intro p hp
    obtain ⟨hp1, _, hp3⟩ := hmem p hp
    rw [hMlen] at hp1
    rw [hrowlen p.1 hp1] at hp3
    exact ⟨lt_of_lt_of_le hp1 hnN, lt_of_lt_of_le hp3 hmN⟩
  obtain ⟨f, hfinj, hfval⟩ := exists_injective_extension N pairs hbounds hnd1 hnd2
  have htermF_nonneg : ∀ g : Fin N → Fin N, ∀ i : Fin N,
      0 ≤ (if i.1 < n ∧ (g i).1 < m then sim i.1 (g i).1 else 0) := by
    intro g i
    by_cases h : i.1 < n ∧ (g i).1 < m
    · rw [if_pos h, hsim_def]
      exact author_similarity_nonneg _ _
    · rw [if_neg h]
  have hex : ∀ p ∈ pairs, ∃ i : Fin N, i ∈ Finset.univ ∧ i.1 = p.1 ∧
      ((l1.map (fun a => l2.map (fun b => author_similarity a b))).getD p.1 []).getD p.2 0 ≤
        (if i.1 < n ∧ (f i).1 < m then sim i.1 (f i).1 else 0) := by
    intro p hp
    obtain ⟨hp1, _, hp3⟩ := hmem p hp
    rw [hMlen] at hp1
    rw [hrowlen p.1 hp1] at hp3
    refine ⟨⟨p.1, lt_of_lt_of_le hp1 hnN⟩, Finset.mem_univ _, rfl, ?_⟩
    have hfp : (f ⟨p.1, lt_of_lt_of_le hp1 hnN⟩).1 = p.2 := hfval p hp _ rfl
    have hcpos : (⟨p.1, lt_of_lt_of_le hp1 hnN⟩ : Fin N).1 < n ∧
        (f ⟨p.1, lt_of_lt_of_le hp1 hnN⟩).1 < m := ⟨hp1, by rw [hfp]; exact hp3⟩
    rw [hval p.1 p.2 hp1 hp3, if_pos hcpos, hfp]
  have hgle := list_sum_le_finsetSum
    (fun i => if i.1 < n ∧ (f i).1 < m then sim i.1 (f i).1 else 0)
    (htermF_nonneg f)
    (fun p =>
      ((l1.map (fun a => l2.map (fun b => author_similarity a b))).getD p.1 []).getD p.2 0)
    pairs Finset.univ hnd1 hex
  have hterm_cost : ∀ g : Fin N → Fin N,
      ∑ i : Fin N, (if i.1 < n ∧ (g i).1 < m then sim i.1 (g i).1 else 0) =
        (N : ℚ) - ∑ i : Fin N, cost i (g i) := by
    intro g
    have hpt : ∀ i : Fin N,
        (if i.1 < n ∧ (g i).1 < m then sim i.1 (g i).1 else 0) = 1 - cost i (g i) := by
      intro i
      rw [hcost_def]
      dsimp only
      by_cases h : i.1 < n ∧ (g i).1 < m
      · rw [if_pos h, if_pos h]
        ring
      · rw [if_neg h, if_neg h]
        ring
    rw [Finset.sum_congr rfl (fun i _ => hpt i), Finset.sum_sub_distrib,
      Finset.sum_const, Finset.card_univ, Fintype.card_fin]
    simp
  obtain ⟨hmap, hinj, hsome, huniq⟩ := hungarian_min_cost_map N cost
  have hfold : (hungarian_min_cost N cost).foldl
      (fun acc p => if p.1 < n ∧ p.2 < m then acc + sim p.1 p.2 else acc) 0 =
      ∑ i : Fin N, (if i.1 < n ∧ (starOf N (hungarianFinalState N cost) i).1 < m
        then sim i.1 (starOf N (hungarianFinalState N cost) i).1 else 0) := by
    rw [hmap, hung_foldl_sum n m sim, zero_add, List.map_map]
    have hc : ((fun p : ℕ × ℕ => if p.1 < n ∧ p.2 < m then sim p.1 p.2 else 0) ∘
        fun i : Fin N => (i.1, (starOf N (hungarianFinalState N cost) i).1)) =
        fun i : Fin N => if i.1 < n ∧ (starOf N (hungarianFinalState N cost) i).1 < m
          then sim i.1 (starOf N (hungarianFinalState N cost) i).1 else 0 := rfl
    rw [hc, ← List.ofFn_eq_map, List.sum_ofFn]
  refine ⟨_, hhung, ?_⟩
  rw [hgreedy]
  have hNQ : (0 : ℚ) < (N : ℚ) := by exact_mod_cast hNpos
  rw [div_le_div_right hNQ]
  calc greedyTotal (l1.map (fun a => l2.map (fun b => author_similarity a b))) ∅
      = (pairs.map (fun p =>
          ((l1.map (fun a => l2.map (fun b => author_similarity a b))).getD p.1
            []).getD p.2 0)).sum := htot
    _ ≤ ∑ i : Fin N, (if i.1 < n ∧ (f i).1 < m then sim i.1 (f i).1 else 0) := hgle
    _ = (N : ℚ) - ∑ i : Fin N, cost i (f i) := hterm_cost f
    _ ≤ (N : ℚ) - ∑ i : Fin N, cost i (starOf N (hungarianFinalState N cost) i) := by
        have hopt := hungarian_optimal N cost f hfinj
        linarith
    _ = ∑ i : Fin N, (if i.1 < n ∧ (starOf N (hungarianFinalState N cost) i).1 < m
          then sim i.1 (starOf N (hungarianFinalState N cost) i).1 else 0) :=
        (hterm_cost (starOf N (hungarianFinalState N cost))).symm
    _ = (hungarian_min_cost N cost).foldl
          (fun acc p => if p.1 < n ∧ p.2 < m then acc + sim p.1 p.2 else acc) 0 :=
        hfold.symm

/-- C1: for every pair of non-empty lists of strings, the Hungarian
(optimal) author-list similarity succeeds and is greater than or equal
to the greedy author-list similarity on the same inputs. -/
theorem claim_C1 (xs ys : List String) (hxs : xs ≠ []) (hys : ys ≠ []) :
    ∃ r : ℚ,
      similarity_authors_hungarian (.list (xs.map SVal.str)) (.list (ys.map SVal.str)) =
        .ok r ∧
      similarity_authors (.list (xs.map SVal.str)) (.list (ys.map SVal.str)) ≤ r :=
  hungarian_ge_greedy (xs.map SVal.str) (ys.map SVal.str)
    (fun h => hxs (List.map_eq_nil_iff.mp h))
    (fun h => hys (List.map_eq_nil_iff.mp h))

/-- Witness for C1 on concrete one-element author lists. -/
theorem claim_C1_witness :
    ∃ r : ℚ,
      similarity_authors_hungarian (.list (["John Smith"].map SVal.str))
        (.list (["J. Smith"].map SVal.str)) = .ok r ∧
      similarity_authors (.list (["John Smith"].map SVal.str))
        (.list (["J. Smith"].map SVal.str)) ≤ r :=
  claim_C1 ["John Smith"] ["J. Smith"] (List.cons_ne_nil _ _) (List.cons_ne_nil _ _)

/-- Witness for C7 on a concrete 1×1 matrix. -/
theorem claim_C7_witness :
    (hungarianFinalState 1 (fun _ _ => 0)).mask 0 0 = 1 ∧
    ((0 : ℕ), (0 : ℕ)) ∈ hungarian_min_cost 1 (fun _ _ => 0) := by
  obtain ⟨h1, h2, h3⟩ := claim_C7 1 (fun _ _ => 0) (fun i j => le_refl 0)
  obtain ⟨i, hi, _⟩ := h1 0
  have hi0 : i = 0 := by
    apply Fin.ext
    have := i.isLt
    omega
  rw [hi0] at hi
  exact ⟨hi, (h3 0 0).mp hi⟩

end SimLib
